import Mathlib

/-!
Verification development for the RIO remote-stream library.

The Python sources (src/rio/utils.py and src/rio/__init__.py) are embedded
shallowly: the `ExistingRanges` range-set structure becomes pure list
functions over `Int` pairs, and the `RemoteIO` stream object becomes an
explicit state record `St` transformed by `seek`, `read` and `close`
models.  Machine behaviour of the collaborators (the HTTP server and the
`io.BytesIO` cache) is captured by the `Env` record and the `Buf` byte
store.
-/

namespace Rio

/-! ## ExistingRanges (src/rio/utils.py)

`ExistingRanges.add` does `bisect.insort_right` followed by an in-place
coalescing pass; `insort` and `coalesceGo` are the two phases.  The Python
list holds `(start, end)` tuples ordered lexicographically. -/

/-- One step of `bisect.insort_right`: insert the pair before the first
lexicographically strictly greater element (so after any equal elements). -/
def insort : List (Int × Int) → (Int × Int) → List (Int × Int)
  | [], p => [p]
  | q :: rest, p =>
    if p.1 < q.1 ∨ (p.1 = q.1 ∧ p.2 < q.2) then p :: q :: rest
    else q :: insort rest p

/-- The in-place merging loop of `ExistingRanges.add`: `index` points at the
current merge target; a later pair `(start, end)` is merged into it whenever
`target.end >= start`, otherwise the target is finalised and the pair becomes
the next target.  Functionally this is an accumulator pass. -/
def coalesceGo : (Int × Int) → List (Int × Int) → List (Int × Int)
  | cur, [] => [cur]
  | cur, q :: rest =>
    if q.1 ≤ cur.2 then coalesceGo (cur.1, max cur.2 q.2) rest
    else cur :: coalesceGo q rest

def coalesce : List (Int × Int) → List (Int × Int)
  | [] => []
  | p :: rest => coalesceGo p rest

/-- `ExistingRanges.add(start, end)`: skip when the exact pair is already
stored, otherwise insert sorted and coalesce. -/
def addRange (l : List (Int × Int)) (s e : Int) : List (Int × Int) :=
  if (s, e) ∈ l then l else coalesce (insort l (s, e))

/-- `ExistingRanges.__contains__((start, end))`: some stored pair
`(starting, ending)` has `starting <= start <= ending` and
`starting <= end <= ending`. -/
def memRange (l : List (Int × Int)) (s e : Int) : Prop :=
  ∃ r ∈ l, r.1 ≤ s ∧ s ≤ r.2 ∧ r.1 ≤ e ∧ e ≤ r.2

instance decMemRange (l : List (Int × Int)) (s e : Int) :
    Decidable (memRange l s e) :=
  List.decidableBEx _ l

/-- `functools.reduce(tuple.__add__, ranges, ())`: the flattened endpoint
list of the stored ranges, in storage order. -/
def endpoints : List (Int × Int) → List Int
  | [] => []
  | r :: rest => r.1 :: r.2 :: endpoints rest

/-- The `partitioners` list of `iter_partition`: every stored endpoint
strictly inside `(s, e)`. -/
def partitioners (l : List (Int × Int)) (s e : Int) : List Int :=
  (endpoints l).filter (fun p => decide (s < p ∧ p < e))

/-- `ExistingRanges.iter_partition(start, end)` collected into a list:
`zip([start, *ps, end], [*ps, end])` when `ps` is nonempty, else the single
span `(start, end)`. -/
def iterPartition (l : List (Int × Int)) (s e : Int) : List (Int × Int) :=
  let ps := partitioners l s e
  if ps = [] then [(s, e)] else List.zip (s :: ps ++ [e]) (ps ++ [e])

/-- Consecutive pairs of a cut list; `iterPartition` always equals
`chunksOf` of its cut sequence. -/
def chunksOf : List Int → List (Int × Int)
  | x :: y :: rest => (x, y) :: chunksOf (y :: rest)
  | _ => []

/-- Coverage predicate: the byte at offset `x` lies in some stored range
(half-open reading). -/
def coveredIn (x : Int) (l : List (Int × Int)) : Prop :=
  ∃ r ∈ l, r.1 ≤ x ∧ x < r.2

instance decCoveredIn (x : Int) (l : List (Int × Int)) :
    Decidable (coveredIn x l) :=
  List.decidableBEx _ l

/-! ## The RemoteIO state model (src/rio/__init__.py)

`Buf` models the `io.BytesIO` local cache: a total byte map together with
the current length.  Writing past the end zero-fills the gap, reading
clamps at the length, exactly as `io.BytesIO` does.  The internal cursor is
not modelled because every access in the source seeks first. -/

structure Buf where
  data : Int → Nat
  len : Int

/-- Bytes `d off, d (off+1), ...` of length `m`. -/
def readData (d : Int → Nat) (off : Int) : Nat → List Nat
  | 0 => []
  | m + 1 => d off :: readData d (off + 1) m

/-- `buffer.seek(off); buffer.read(k)`: a negative `k` reads to the end
(the `io` read-all convention), otherwise at most `k` bytes up to `len`. -/
def bufRead (b : Buf) (off k : Int) : List Nat :=
  let stop := if k < 0 then b.len else min (off + k) b.len
  readData b.data off (stop - off).toNat

/-- `buffer.seek(off); buffer.write(bs)`: overwrite `[off, off+|bs|)`,
zero-fill `[len, off)` when writing past the end, extend the length.
Writing the empty byte string is a no-op (as in `io.BytesIO`). -/
def bufWrite (b : Buf) (off : Int) (bs : List Nat) : Buf :=
  if bs = [] then b
  else
    { data := fun x =>
        if off ≤ x ∧ x < off + bs.length then bs.getD (x - off).toNat 0
        else if b.len ≤ x ∧ x < off then 0
        else b.data x,
      len := max b.len (off + bs.length) }

/-- One open streaming response: its current read position inside the
resource and whether its headers carry a usable Content-Range. -/
structure Session where
  spos : Int
  hasCR : Bool

/-- The remote collaborators: the resource bytes, whether HEAD answers with
a nonzero Content-Length, and whether ranged responses carry Content-Range
(range support). -/
structure Env where
  content : List Nat
  headGivesLength : Bool
  rangeHasCR : Bool

def contentLen (env : Env) : Int := env.content.length

/-- `streaming_response.raw.read(k)`: the next bytes of the open ranged
response, sequentially; a negative `k` reads all that remains.  The
consumed bytes advance the response position. -/
def sessBytes (env : Env) (s : Session) (k : Int) : List Nat :=
  if k < 0 then env.content.drop s.spos.toNat
  else (env.content.drop s.spos.toNat).take k.toNat

def sessRead (env : Env) (s : Session) (k : Int) : List Nat × Session :=
  (sessBytes env s k, { s with spos := s.spos + (sessBytes env s k).length })

/-- Errors the source can raise on the modelled paths. -/
inductive Err where
  | assertion
  | sizeUnknown
  | runtime
  | bufferSeek
  | unmodeled
  deriving DecidableEq

/-- The `RemoteIO` instance state: `pos`, the `io.BytesIO` cache, the
`ExistingRanges`, the optional streaming response, the `server_read`
diagnostic counter, the memoised `server_full_size`, and closure flags for
the transport `requests.Session`, the cache buffer and the current
streaming response. -/
structure St where
  pos : Int
  buf : Buf
  ranges : List (Int × Int)
  resp : Option Session
  respClosed : Bool
  server_read : Int
  server_full_size : Option Int
  transportClosed : Bool
  bufferClosed : Bool

/-- The HEAD / ranged-GET fallback half of `attempt_size_resolving`:
a nonzero HEAD Content-Length wins, else a Content-Range from a ranged GET,
else resolution fails softly. -/
def attemptSizeFallback (env : Env) (st : St) : Option Int × St :=
  let cl : Int := if env.headGivesLength then contentLen env else 0
  if cl ≠ 0 then (some cl, { st with server_full_size := some cl })
  else if env.rangeHasCR then
    (some (contentLen env), { st with server_full_size := some (contentLen env) })
  else (none, st)

/-- `RemoteIO.attempt_size_resolving`: memoised value first, then the open
response's Content-Range, then the HEAD / ranged-GET fallback. -/
def attemptSize (env : Env) (st : St) : Option Int × St :=
  match st.server_full_size with
  | some s => (some s, st)
  | none =>
    match st.resp with
    | some sess =>
      if sess.hasCR then
        (some (contentLen env), { st with server_full_size := some (contentLen env) })
      else attemptSizeFallback env st
    | none => attemptSizeFallback env st

/-- The tail of `RemoteIO.seek` after the candidate position was stored:
the `initial == pos` no-op check, the cached-probe check, then closing the
previous response and opening a new ranged request.  `offVar` is the
Python local `offset` at that point; a forward seek requests `"{offVar}-"`
(anchored at `offVar`), an EOF seek requests `"-{|offVar|}"` (anchored at
the last `|offVar|` bytes).  The Python function returns `None` on every
path, recorded as the second component. -/
def seekCore (env : Env) (st : St) (initial offVar : Int) (hyp : Int × Int)
    (isForward : Bool) : Except Err (St × Option Int) :=
  if initial = st.pos then .ok (st, none)
  else if memRange st.ranges hyp.1 hyp.2 then .ok (st, none)
  else
    let anchor := if isForward then offVar else max 0 (contentLen env - |offVar|)
    let sess : Session := ⟨anchor, env.rangeHasCR⟩
    .ok ({ st with resp := some sess, respClosed := false }, none)

/-- `RemoteIO.seek(offset, whence)`.  `whence = 0` returns immediately when
already at `offset`; `whence = 1` adds to the position; `whence = 2`
negates the absolute offset, requires the resolved size and fails with
`ValueError` when it is unknown.  Any other `whence` trips the `assert`. -/
def seek (env : Env) (st : St) (offset : Int) (whence : Int) :
    Except Err (St × Option Int) :=
  if whence = 0 then
    if st.pos = offset then .ok (st, none)
    else
      seekCore env { st with pos := offset } st.pos offset
        (offset, offset + 1) true
  else if whence = 1 then
    seekCore env { st with pos := st.pos + offset } st.pos (st.pos + offset)
      (st.pos + offset, st.pos + offset + 1) true
  else if whence = 2 then
    let off := -|offset|
    match attemptSize env st with
    | (none, _) => .error .sizeUnknown
    | (some total, st1) =>
      seekCore env { st1 with pos := total + off } st.pos off
        (total + off, total) false
  else .error .assertion

/-- The per-partition loop of `RemoteIO.read`: `buffer.seek(start)` (which
raises on a negative offset), then either a cache hit served from the
buffer, or a cache miss that seeks, requires an open response
(`RuntimeError` otherwise), pulls the bounded span from it, writes it to
the buffer, counts it into `server_read` and registers the requested span
in the range set. -/
def readLoop (env : Env) : St → List (Int × Int) → Except Err (St × List Nat)
  | st, [] => .ok (st, [])
  | st, (a, b) :: rest =>
    if a < 0 then .error .bufferSeek
    else if memRange st.ranges a b then
      match readLoop env st rest with
      | .ok (st', chunk) => .ok (st', bufRead st.buf a (b - a) ++ chunk)
      | .error e => .error e
    else
      match seek env st a 0 with
      | .error e => .error e
      | .ok (st1, _) =>
        match st1.resp with
        | none => .error .runtime
        | some sess =>
          match readLoop env
              { st1 with
                buf := bufWrite st1.buf a (sessRead env sess (b - a)).1,
                resp := some (sessRead env sess (b - a)).2,
                server_read :=
                  st1.server_read + ((sessRead env sess (b - a)).1).length,
                ranges := addRange st1.ranges a b } rest with
          | .ok (st', chunk) => .ok (st', (sessRead env sess (b - a)).1 ++ chunk)
          | .error e => .error e

/-- `RemoteIO.read(n)`.  The advisory `warn` the source emits for a full
read from position 0 changes no state and is not modelled.  The size is
resolved first; with a known size the
request span `[pos, pos+n)` (or `[pos, size)` for a read-to-end) is
partitioned and served by `readLoop`, and the position is advanced by the
total length produced.  When the size stays unknown the source uses the
single untyped partition `(pos, None)`: on that path it raises `TypeError`
inside `__contains__` as soon as the range set is nonempty, and otherwise
stores the untyped pair `(pos, None)` in the range set, which has no
counterpart in the `Int`-pair embedding; the whole branch is therefore
mapped to the `unmodeled` error and no claim exercises it. -/
def read (env : Env) (st : St) (n : Option Int) :
    Except Err (St × List Nat) :=
  match attemptSize env st with
  | (some fs, st1) =>
    match readLoop env st1
        (iterPartition st1.ranges st1.pos
          (match n with | some k => st1.pos + k | none => fs)) with
    | .ok (st2, chunk) => .ok ({ st2 with pos := st2.pos + chunk.length }, chunk)
    | .error e => .error e
  | (none, _) => .error .unmodeled

/-- `RemoteIO.close`: close the streaming response if one is open, then
always close the transport `requests.Session`; the cache buffer is never
touched. -/
def close (st : St) : St :=
  { st with
    respClosed := if st.resp.isSome then true else st.respClosed,
    transportClosed := true }

/-! ## Range-set lemmas

`le1` is sortedness by start; `rngOrd` is the stored-range invariant
relation: disjoint with a nonempty gap, and sorted by start. -/

def le1 (a b : Int × Int) : Prop := a.1 ≤ b.1

def rngOrd (a b : Int × Int) : Prop := a.2 < b.1 ∧ a.1 ≤ b.1

instance : IsTrans (Int × Int) rngOrd :=
  ⟨fun _ _ _ hab hbc => ⟨lt_of_lt_of_le hab.1 hbc.2, le_trans hab.2 hbc.2⟩⟩

theorem rngOrd_le1 {a b : Int × Int} (h : rngOrd a b) : le1 a b := h.2

theorem insort_perm (l : List (Int × Int)) (p : Int × Int) :
    List.Perm (insort l p) (p :: l) := by
  induction l with
  | nil => simp [insort]
  | cons q rest ih =>
    by_cases h : p.1 < q.1 ∨ (p.1 = q.1 ∧ p.2 < q.2)
    · simp [insort, h]
    · simp only [insort, if_neg h]
      exact (ih.cons q).trans (List.Perm.swap p q rest)

theorem mem_insort {l : List (Int × Int)} {p r : Int × Int} :
    r ∈ insort l p ↔ r = p ∨ r ∈ l := by
  rw [(insort_perm l p).mem_iff, List.mem_cons]

theorem insort_head (l : List (Int × Int)) (p : Int × Int) :
    (insort l p).head? = some p ∨ (insort l p).head? = l.head? := by
  cases l with
  | nil => left; rfl
  | cons q rest =>
    by_cases h : p.1 < q.1 ∨ (p.1 = q.1 ∧ p.2 < q.2)
    · left; simp [insort, h]
    · right; simp [insort, h]

theorem insort_chain {l : List (Int × Int)} (p : Int × Int)
    (hl : l.Chain' le1) : (insort l p).Chain' le1 := by
  induction l with
  | nil => simp [insort]
  | cons q rest ih =>
    rw [List.chain'_cons'] at hl
    by_cases h : p.1 < q.1 ∨ (p.1 = q.1 ∧ p.2 < q.2)
    · simp only [insort, if_pos h]
      rw [List.chain'_cons']
      refine ⟨?_, List.chain'_cons'.2 hl⟩
      intro y hy
      simp only [List.head?_cons, Option.mem_def, Option.some_inj] at hy
      subst hy
      show p.1 ≤ q.1
      rcases h with h | h
      · exact le_of_lt h
      · exact le_of_eq h.1
    · simp only [insort, if_neg h]
      rw [List.chain'_cons']
      refine ⟨?_, ih hl.2⟩
      intro y hy
      have hq : q.1 ≤ p.1 := by
        by_contra hc
        exact h (Or.inl (by omega))
      rcases insort_head rest p with h1 | h1
      · rw [h1] at hy
        simp only [Option.mem_def, Option.some_inj] at hy
        subst hy
        exact hq
      · rw [h1] at hy
        exact hl.1 y hy

theorem coalesceGo_head (cur : Int × Int) (l : List (Int × Int)) :
    ∃ y t, coalesceGo cur l = (cur.1, y) :: t := by
  induction l generalizing cur with
  | nil => exact ⟨cur.2, [], rfl⟩
  | cons q rest ih =>
    by_cases h : q.1 ≤ cur.2
    · simpa [coalesceGo, h] using ih (cur.1, max cur.2 q.2)
    · exact ⟨cur.2, coalesceGo q rest, by simp [coalesceGo, h]⟩

theorem coalesceGo_chain (cur : Int × Int) (l : List (Int × Int))
    (h : (cur :: l).Chain' le1) : (coalesceGo cur l).Chain' rngOrd := by
  induction l generalizing cur with
  | nil => simp [coalesceGo]
  | cons q rest ih =>
    rw [List.chain'_cons] at h
    by_cases hm : q.1 ≤ cur.2
    · simp only [coalesceGo, if_pos hm]
      apply ih
      have h2 := List.chain'_cons'.1 h.2
      refine List.chain'_cons'.2 ⟨fun y hy => ?_, h2.2⟩
      show cur.1 ≤ y.1
      exact le_trans h.1 (h2.1 y hy)
    · simp only [coalesceGo, if_neg hm]
      rw [List.chain'_cons']
      refine ⟨?_, ih q h.2⟩
      intro y hy
      obtain ⟨y2, t, he⟩ := coalesceGo_head q rest
      rw [he] at hy
      simp only [List.head?_cons, Option.mem_def, Option.some_inj] at hy
      subst hy
      refine ⟨show cur.2 < q.1 by omega, show cur.1 ≤ q.1 from h.1⟩

theorem coalesceGo_forall (P : Int × Int → Prop)
    (hP : ∀ c q, P c → P q → P (c.1, max c.2 q.2)) :
    ∀ (l : List (Int × Int)) (cur : Int × Int), P cur → (∀ r ∈ l, P r) →
      ∀ r ∈ coalesceGo cur l, P r := by
  intro l
  induction l with
  | nil =>
    intro cur hc _ r hr
    simp only [coalesceGo, List.mem_singleton] at hr
    exact hr ▸ hc
  | cons q rest ih =>
    intro cur hc hl r hr
    by_cases hm : q.1 ≤ cur.2
    · simp only [coalesceGo, if_pos hm] at hr
      exact ih _ (hP cur q hc (hl q (by simp))) (fun r' hr' => hl r' (by simp [hr'])) r hr
    · simp only [coalesceGo, if_neg hm, List.mem_cons] at hr
      rcases hr with hr | hr
      · exact hr ▸ hc
      · exact ih q (hl q (by simp)) (fun r' hr' => hl r' (by simp [hr'])) r hr

theorem coveredIn_cons {x : Int} {r : Int × Int} {l : List (Int × Int)} :
    coveredIn x (r :: l) ↔ (r.1 ≤ x ∧ x < r.2) ∨ coveredIn x l := by
  simp [coveredIn]

theorem coveredIn_nil {x : Int} : ¬ coveredIn x [] := by
  simp [coveredIn]

theorem coveredIn_perm {x : Int} {l1 l2 : List (Int × Int)}
    (h : List.Perm l1 l2) : coveredIn x l1 ↔ coveredIn x l2 := by
  unfold coveredIn
  constructor
  · rintro ⟨r, hr, hx⟩; exact ⟨r, h.mem_iff.1 hr, hx⟩
  · rintro ⟨r, hr, hx⟩; exact ⟨r, h.mem_iff.2 hr, hx⟩

theorem coveredIn_coalesceGo (x : Int) :
    ∀ (l : List (Int × Int)) (cur : Int × Int), (cur :: l).Chain' le1 →
      (coveredIn x (coalesceGo cur l) ↔
        ((cur.1 ≤ x ∧ x < cur.2) ∨ coveredIn x l)) := by
  intro l
  induction l with
  | nil =>
    intro cur _
    simp [coalesceGo, coveredIn_cons, coveredIn_nil]
  | cons q rest ih =>
    intro cur h
    rw [List.chain'_cons] at h
    have hcq : cur.1 ≤ q.1 := h.1
    by_cases hm : q.1 ≤ cur.2
    · simp only [coalesceGo, if_pos hm]
      have h2 := List.chain'_cons'.1 h.2
      have hch : ((cur.1, max cur.2 q.2) :: rest).Chain' le1 :=
        List.chain'_cons'.2 ⟨fun y hy => le_trans h.1 (h2.1 y hy), h2.2⟩
      rw [ih _ hch, coveredIn_cons]
      rcases le_total cur.2 q.2 with hq | hq
      · rw [max_eq_right hq]
        constructor
        · rintro (hx | hx)
          · by_cases hx2 : x < cur.2
            · exact Or.inl ⟨hx.1, hx2⟩
            · exact Or.inr (Or.inl ⟨by omega, hx.2⟩)
          · exact Or.inr (Or.inr hx)
        · rintro (hx | hx | hx)
          · exact Or.inl ⟨hx.1, by omega⟩
          · exact Or.inl ⟨by omega, hx.2⟩
          · exact Or.inr hx
      · rw [max_eq_left hq]
        constructor
        · rintro (hx | hx)
          · exact Or.inl hx
          · exact Or.inr (Or.inr hx)
        · rintro (hx | hx | hx)
          · exact Or.inl hx
          · exact Or.inl ⟨by omega, by omega⟩
          · exact Or.inr hx
    · simp only [coalesceGo, if_neg hm]
      rw [coveredIn_cons, ih q h.2, coveredIn_cons]

theorem coveredIn_coalesce {x : Int} {l : List (Int × Int)}
    (h : l.Chain' le1) : coveredIn x (coalesce l) ↔ coveredIn x l := by
  cases l with
  | nil => simp [coalesce]
  | cons p rest =>
    simp only [coalesce]
    rw [coveredIn_coalesceGo x rest p h, coveredIn_cons]

theorem addRange_chain {l : List (Int × Int)} (hl : l.Chain' rngOrd)
    (s e : Int) : (addRange l s e).Chain' rngOrd := by
  unfold addRange
  by_cases hmem : (s, e) ∈ l
  · simp only [if_pos hmem]; exact hl
  · simp only [if_neg hmem]
    have hle : (insort l (s, e)).Chain' le1 :=
      insort_chain (s, e) (hl.imp fun _ _ h => rngOrd_le1 h)
    cases hi : insort l (s, e) with
    | nil => simp [coalesce]
    | cons p rest =>
      rw [hi] at hle
      exact coalesceGo_chain p rest hle

theorem coveredIn_addRange {l : List (Int × Int)} (hl : l.Chain' le1)
    (s e x : Int) :
    coveredIn x (addRange l s e) ↔ (coveredIn x l ∨ (s ≤ x ∧ x < e)) := by
  unfold addRange
  by_cases hmem : (s, e) ∈ l
  · simp only [if_pos hmem]
    constructor
    · exact Or.inl
    · rintro (hx | hx)
      · exact hx
      · exact ⟨(s, e), hmem, hx⟩
  · simp only [if_neg hmem]
    have hle : (insort l (s, e)).Chain' le1 := insort_chain (s, e) hl
    rw [coveredIn_coalesce hle, coveredIn_perm (insort_perm l (s, e)),
      coveredIn_cons]
    exact or_comm

theorem addRange_forall {l : List (Int × Int)} (P : Int × Int → Prop)
    (hP : ∀ c q, P c → P q → P (c.1, max c.2 q.2))
    (hl : ∀ r ∈ l, P r) {s e : Int} (hse : P (s, e)) :
    ∀ r ∈ addRange l s e, P r := by
  unfold addRange
  by_cases hmem : (s, e) ∈ l
  · simp only [if_pos hmem]; exact hl
  · simp only [if_neg hmem]
    have hins : ∀ r ∈ insort l (s, e), P r := by
      intro r hr
      rcases mem_insort.1 hr with hr | hr
      · exact hr ▸ hse
      · exact hl r hr
    cases hi : insort l (s, e) with
    | nil => simp [coalesce]
    | cons p rest =>
      simp only [coalesce]
      exact coalesceGo_forall P hP rest p (hins p (by rw [hi]; simp))
        (fun r hr => hins r (by rw [hi]; simp [hr]))

/-! ### Membership (`__contains__`) characterisations -/

theorem memRange_elim {l : List (Int × Int)} {s e : Int}
    (h : memRange l s e) : ∃ r ∈ l, r.1 ≤ s ∧ e ≤ r.2 := by
  obtain ⟨r, hr, h1, _, _, h4⟩ := h
  exact ⟨r, hr, h1, h4⟩

theorem memRange_intro {l : List (Int × Int)} {s e : Int} (hse : s ≤ e)
    {r : Int × Int} (hr : r ∈ l) (h1 : r.1 ≤ s) (h2 : e ≤ r.2) :
    memRange l s e :=
  ⟨r, hr, h1, le_trans hse h2, le_trans h1 hse, h2⟩

theorem memRange_covers {l : List (Int × Int)} {s e : Int}
    (h : memRange l s e) {x : Int} (h1 : s ≤ x) (h2 : x < e) :
    coveredIn x l := by
  obtain ⟨r, hr, hs, he⟩ := memRange_elim h
  exact ⟨r, hr, le_trans hs h1, lt_of_lt_of_le h2 he⟩

theorem not_memRange {l : List (Int × Int)} {s e : Int} (hse : s < e)
    (h : ¬ coveredIn s l) : ¬ memRange l s e :=
  fun hm => h (memRange_covers hm le_rfl hse)

/-- On a range set satisfying the invariant, a nonempty covered span lies
inside a single stored range. -/
theorem covered_connected {l : List (Int × Int)} (hc : l.Chain' rngOrd)
    {a b : Int} (hab : a < b)
    (hcov : ∀ x, a ≤ x → x < b → coveredIn x l) :
    ∃ r ∈ l, r.1 ≤ a ∧ b ≤ r.2 := by
  obtain ⟨r, hr, hr1, hr2⟩ := hcov a le_rfl hab
  refine ⟨r, hr, hr1, ?_⟩
  by_contra hlt
  push_neg at hlt
  obtain ⟨r', hr', hr'1, hr'2⟩ := hcov r.2 (le_of_lt hr2) hlt
  have hp : List.Pairwise (fun u v => rngOrd u v ∨ rngOrd v u) l := by
    have := (@List.chain'_iff_pairwise (Int × Int) rngOrd _ _).1 hc
    exact this.imp Or.inl
  have htri : r = r' ∨ rngOrd r r' ∨ rngOrd r' r := by
    by_cases hrr : r = r'
    · exact Or.inl hrr
    · exact Or.inr (List.Pairwise.forall (by
        intro u v h
        exact h.symm) hp hr hr' hrr)
  rcases htri with hrr | hrr | hrr
  · subst hrr; omega
  · exact absurd hrr.1 (not_lt.2 hr'1)
  · have := hrr.1
    omega

theorem memRange_of_covered {l : List (Int × Int)} (hc : l.Chain' rngOrd)
    {a b : Int} (hab : a < b)
    (hcov : ∀ x, a ≤ x → x < b → coveredIn x l) : memRange l a b := by
  obtain ⟨r, hr, h1, h2⟩ := covered_connected hc hab hcov
  exact memRange_intro (le_of_lt hab) hr h1 h2

/-! ## Partition lemmas

`iterPartition` is the list of consecutive pairs (`chunksOf`) of the cut
sequence `start :: partitioners ++ [end]`; the cut sequence is strictly
sorted when the stored ranges satisfy the invariant. -/

theorem zip_tail_chunksOf (xs : List Int) (x : Int) :
    List.zip (x :: xs) xs = chunksOf (x :: xs) := by
  induction xs generalizing x with
  | nil => rfl
  | cons y r ih =>
    show (x, y) :: List.zip (y :: r) r = chunksOf (x :: y :: r)
    rw [ih y, chunksOf]

theorem iterPartition_eq (l : List (Int × Int)) (s e : Int) :
    iterPartition l s e = chunksOf (s :: (partitioners l s e ++ [e])) := by
  unfold iterPartition
  by_cases hps : partitioners l s e = []
  · simp [hps, chunksOf]
  · simp only [if_neg hps]
    exact zip_tail_chunksOf (partitioners l s e ++ [e]) s

theorem mem_endpoints {l : List (Int × Int)} {r : Int × Int} (h : r ∈ l) :
    r.1 ∈ endpoints l ∧ r.2 ∈ endpoints l := by
  induction l with
  | nil => simp at h
  | cons q rest ih =>
    rcases List.mem_cons.1 h with h | h
    · subst h; exact ⟨by simp [endpoints], by simp [endpoints]⟩
    · obtain ⟨h1, h2⟩ := ih h
      exact ⟨by simp [endpoints, h1], by simp [endpoints, h2]⟩

theorem endpoints_head (l : List (Int × Int)) :
    (endpoints l).head? = l.head?.map Prod.fst := by
  cases l <;> rfl

theorem endpoints_chain {l : List (Int × Int)} (hc : l.Chain' rngOrd)
    (hwf : ∀ r ∈ l, r.1 < r.2) : (endpoints l).Chain' (· < ·) := by
  induction l with
  | nil => simp [endpoints]
  | cons r rest ih =>
    show (r.1 :: r.2 :: endpoints rest).Chain' (· < ·)
    rw [List.chain'_cons]
    refine ⟨hwf r (by simp), ?_⟩
    rw [List.chain'_cons']
    refine ⟨?_, ih hc.tail (fun q hq => hwf q (by simp [hq]))⟩
    intro y hy
    rw [endpoints_head] at hy
    cases rest with
    | nil => simp at hy
    | cons r' rest' =>
      simp only [List.head?_cons, Option.map_some', Option.mem_def,
        Option.some_inj] at hy
      subst hy
      exact (List.chain'_cons.1 hc).1.1

theorem mem_partitioners {l : List (Int × Int)} {s e p : Int} :
    p ∈ partitioners l s e ↔ p ∈ endpoints l ∧ s < p ∧ p < e := by
  simp [partitioners, List.mem_filter]

theorem partitioners_pairwise {l : List (Int × Int)} (hc : l.Chain' rngOrd)
    (hwf : ∀ r ∈ l, r.1 < r.2) (s e : Int) :
    (partitioners l s e).Pairwise (· < ·) := by
  have hp : (endpoints l).Pairwise (· < ·) :=
    List.chain'_iff_pairwise.1 (endpoints_chain hc hwf)
  exact hp.filter _

theorem cuts_pairwise {l : List (Int × Int)} (hc : l.Chain' rngOrd)
    (hwf : ∀ r ∈ l, r.1 < r.2) {s e : Int} (hse : s < e) :
    (s :: (partitioners l s e ++ [e])).Pairwise (· < ·) := by
  rw [List.pairwise_cons]
  constructor
  · intro b hb
    rcases List.mem_append.1 hb with hb | hb
    · exact (mem_partitioners.1 hb).2.1
    · simp only [List.mem_singleton] at hb
      subst hb; exact hse
  · rw [List.pairwise_append]
    refine ⟨partitioners_pairwise hc hwf s e, by simp, ?_⟩
    intro a ha b hb
    simp only [List.mem_singleton] at hb
    subst hb
    exact (mem_partitioners.1 ha).2.2

theorem chunksOf_mem :
    ∀ {c : List Int} {u v : Int}, (u, v) ∈ chunksOf c → u ∈ c ∧ v ∈ c := by
  intro c
  induction c with
  | nil => intro u v h; simp [chunksOf] at h
  | cons x xs ih =>
    intro u v h
    cases xs with
    | nil => simp [chunksOf] at h
    | cons y rest =>
      rw [chunksOf] at h
      rcases List.mem_cons.1 h with h | h
      · rw [Prod.mk.injEq] at h
        obtain ⟨rfl, rfl⟩ := h
        exact ⟨by simp, by simp⟩
      · obtain ⟨h1, h2⟩ := ih h
        exact ⟨by simp [h1], by simp [h2]⟩

theorem chunksOf_head2 (y : Int) (rest : List Int) :
    (chunksOf (y :: rest)).head? = rest.head?.map (fun z => (y, z)) := by
  cases rest <;> rfl

theorem chunksOf_consec : ∀ (c : List Int),
    (chunksOf c).Chain' (fun p q => p.2 = q.1) := by
  intro c
  induction c with
  | nil => simp [chunksOf]
  | cons x xs ih =>
    cases xs with
    | nil => simp [chunksOf]
    | cons y rest =>
      rw [chunksOf, List.chain'_cons']
      refine ⟨?_, ih⟩
      intro p hp
      rw [chunksOf_head2] at hp
      cases rest with
      | nil => simp at hp
      | cons z r' =>
        simp only [List.head?_cons, Option.map_some', Option.mem_def,
          Option.some_inj] at hp
        subst hp
        rfl

theorem chunksOf_no_cut_inside :
    ∀ {c : List Int}, c.Pairwise (· < ·) →
      ∀ {u v : Int}, (u, v) ∈ chunksOf c → ∀ w ∈ c, ¬(u < w ∧ w < v) := by
  intro c
  induction c with
  | nil => intro _ u v h; simp [chunksOf] at h
  | cons x xs ih =>
    intro hp u v h w hw
    cases xs with
    | nil => simp [chunksOf] at h
    | cons y rest =>
      rw [List.pairwise_cons] at hp
      rw [chunksOf] at h
      rcases List.mem_cons.1 h with h | h
      · rw [Prod.mk.injEq] at h
        rcases List.mem_cons.1 hw with hw | hw
        · omega
        · have hyw : y ≤ w := by
            rcases List.mem_cons.1 hw with hw | hw
            · omega
            · exact le_of_lt ((List.pairwise_cons.1 hp.2).1 w hw)
          omega
      · rcases List.mem_cons.1 hw with hw | hw
        · have hu : u ∈ y :: rest := (chunksOf_mem h).1
          have := hp.1 u hu
          omega
        · exact ih hp.2 h w hw

/-- The structural partition invariant: consecutive pairs that exactly tile
the interval from the first cut to the last. -/
def PartsGood : List (Int × Int) → Int → Int → Prop
  | [], c, d => c = d
  | (a, b) :: rest, c, d => a = c ∧ a < b ∧ PartsGood rest b d

theorem chunksOf_partsGood :
    ∀ (m : List Int) (x e : Int), (x :: (m ++ [e])).Chain' (· < ·) →
      PartsGood (chunksOf (x :: (m ++ [e]))) x e := by
  intro m
  induction m with
  | nil =>
    intro x e h
    exact ⟨rfl, (List.chain'_cons.1 h).1, rfl⟩
  | cons y m' ih =>
    intro x e h
    exact ⟨rfl, (List.chain'_cons.1 h).1, ih y e (List.chain'_cons.1 h).2⟩

theorem partsGood_le :
    ∀ {parts : List (Int × Int)} {c d : Int}, PartsGood parts c d → c ≤ d := by
  intro parts
  induction parts with
  | nil => intro c d h; exact le_of_eq h
  | cons p rest ih =>
    intro c d h
    obtain ⟨h1, h2, h3⟩ := h
    have := ih h3
    omega

theorem partsGood_bounds :
    ∀ {parts : List (Int × Int)} {c d : Int}, PartsGood parts c d →
      ∀ p ∈ parts, c ≤ p.1 ∧ p.1 < p.2 ∧ p.2 ≤ d := by
  intro parts
  induction parts with
  | nil => intro c d _ p hp; simp at hp
  | cons q rest ih =>
    intro c d h p hp
    obtain ⟨h1, h2, h3⟩ := h
    rcases List.mem_cons.1 hp with hp | hp
    · subst hp
      have := partsGood_le h3
      omega
    · have := ih h3 p hp
      omega

theorem partsGood_cover :
    ∀ {parts : List (Int × Int)} {c d : Int}, PartsGood parts c d →
      ∀ x : Int, (∃ p ∈ parts, p.1 ≤ x ∧ x < p.2) ↔ (c ≤ x ∧ x < d) := by
  intro parts
  induction parts with
  | nil =>
    intro c d h x
    subst h
    constructor
    · intro hx; simp at hx
    · intro hx; omega
  | cons q rest ih =>
    intro c d h x
    obtain ⟨h1, h2, h3⟩ := h
    subst h1
    rw [List.exists_mem_cons_iff, ih h3]
    have := partsGood_le h3
    omega

theorem partsGood_consec :
    ∀ {parts : List (Int × Int)} {c d : Int}, PartsGood parts c d →
      parts.Chain' (fun p q => p.2 = q.1) := by
  intro parts
  induction parts with
  | nil => intro c d _; simp
  | cons q rest ih =>
    intro c d h
    obtain ⟨h1, h2, h3⟩ := h
    rw [List.chain'_cons']
    refine ⟨?_, ih h3⟩
    intro p hp
    cases rest with
    | nil => simp at hp
    | cons q' rest' =>
      simp only [List.head?_cons, Option.mem_def, Option.some_inj] at hp
      subst hp
      exact h3.1.symm

theorem partsGood_iterPartition {l : List (Int × Int)}
    (hc : l.Chain' rngOrd) (hwf : ∀ r ∈ l, r.1 < r.2) {s e : Int}
    (hse : s < e) : PartsGood (iterPartition l s e) s e := by
  rw [iterPartition_eq]
  exact chunksOf_partsGood (partitioners l s e) s e
    (List.chain'_iff_pairwise.2 (cuts_pairwise hc hwf hse))

/-- Every partition cell that overlaps a stored range is contained in it
(the cell endpoints are consecutive cuts, and stored endpoints inside the
query span are cuts). -/
theorem partition_cell_contained {l : List (Int × Int)}
    (hc : l.Chain' rngOrd) (hwf : ∀ r ∈ l, r.1 < r.2) {s e : Int}
    (hse : s < e) :
    ∀ p ∈ iterPartition l s e, ∀ r ∈ l,
      p.1 < r.2 → r.1 < p.2 → r.1 ≤ p.1 ∧ p.2 ≤ r.2 := by
  intro p hp r hr h1 h2
  rw [iterPartition_eq] at hp
  set cuts := s :: (partitioners l s e ++ [e]) with hcuts
  have hpw : cuts.Pairwise (· < ·) := cuts_pairwise hc hwf hse
  obtain ⟨u, v⟩ := p
  have hmemc := chunksOf_mem hp
  have hbound : ∀ w ∈ cuts, s ≤ w ∧ w ≤ e := by
    intro w hw
    rcases List.mem_cons.1 hw with hw | hw
    · subst hw; exact ⟨le_rfl, le_of_lt hse⟩
    · rcases List.mem_append.1 hw with hw | hw
      · have := (mem_partitioners.1 hw).2
        omega
      · simp only [List.mem_singleton] at hw
        subst hw; exact ⟨le_of_lt hse, le_rfl⟩

  have hu := hbound u hmemc.1
  have hv := hbound v hmemc.2
  have hnocut := chunksOf_no_cut_inside hpw hp
  constructor
  · by_contra hlt
    push_neg at hlt
    have hr1cut : r.1 ∈ cuts := by
      rw [hcuts]
      refine List.mem_cons.2 (Or.inr (List.mem_append.2 (Or.inl ?_)))
      refine mem_partitioners.2 ⟨(mem_endpoints hr).1, ?_, ?_⟩ <;> omega
    exact hnocut r.1 hr1cut ⟨hlt, by omega⟩
  · by_contra hlt
    push_neg at hlt
    have hr2cut : r.2 ∈ cuts := by
      rw [hcuts]
      refine List.mem_cons.2 (Or.inr (List.mem_append.2 (Or.inl ?_)))
      refine mem_partitioners.2 ⟨(mem_endpoints hr).2, ?_, ?_⟩ <;> omega
    exact hnocut r.2 hr2cut ⟨by omega, hlt⟩

/-- The stored-range invariant as stated in the specification (strict gaps
between successive ranges, each range well-formed) implies the combined
order relation. -/
theorem chain_gap_rngOrd {l : List (Int × Int)}
    (hc : l.Chain' (fun r t => r.2 < t.1)) (hwf : ∀ r ∈ l, r.1 < r.2) :
    l.Chain' rngOrd := by
  induction l with
  | nil => simp
  | cons r rest ih =>
    rw [List.chain'_cons'] at hc ⊢
    refine ⟨?_, ih hc.2 (fun q hq => hwf q (by simp [hq]))⟩
    intro y hy
    have h1 := hc.1 y hy
    have h2 := hwf r (by simp)
    exact ⟨h1, by omega⟩

/-! ## Claim C1: partition correctness -/

/-- C1: on a range set satisfying the stored-range invariant and a query
`start < end`, `iter_partition` tiles `[start, end)` exactly: the cells are
consecutive, non-overlapping and well-formed from `start` to `end`
(`PartsGood` and the chain), their union is exactly `[start, end)`, and
every cell is either contained in a single stored range or disjoint from
all stored ranges.  On an empty range set the single span is returned, and
on `{(0,20),(25,30)}` the query `(5,28)` yields
`[(5,20),(20,25),(25,28)]`. -/
theorem partition_spec :
    (∀ (l : List (Int × Int)) (s e : Int),
      l.Chain' (fun r t => r.2 < t.1) → (∀ r ∈ l, r.1 < r.2) → s < e →
      PartsGood (iterPartition l s e) s e ∧
      (iterPartition l s e).Chain' (fun p q => p.2 = q.1) ∧
      (∀ x : Int, (∃ p ∈ iterPartition l s e, p.1 ≤ x ∧ x < p.2) ↔
        (s ≤ x ∧ x < e)) ∧
      (∀ p ∈ iterPartition l s e,
        (∃ r ∈ l, r.1 ≤ p.1 ∧ p.2 ≤ r.2) ∨
        (∀ r ∈ l, p.2 ≤ r.1 ∨ r.2 ≤ p.1))) ∧
    (∀ s e : Int, iterPartition [] s e = [(s, e)]) ∧
    iterPartition [(0, 20), (25, 30)] 5 28 = [(5, 20), (20, 25), (25, 28)] := by
  refine ⟨?_, fun s e => rfl, by decide⟩
  intro l s e hgap hwf hse
  have hc : l.Chain' rngOrd := chain_gap_rngOrd hgap hwf
  have hpg := partsGood_iterPartition hc hwf hse
  refine ⟨hpg, partsGood_consec hpg, partsGood_cover hpg, ?_⟩
  intro p hp
  by_cases hov : ∃ r ∈ l, p.1 < r.2 ∧ r.1 < p.2
  · obtain ⟨r, hr, h1, h2⟩ := hov
    obtain ⟨h3, h4⟩ := partition_cell_contained hc hwf hse p hp r hr h1 h2
    exact Or.inl ⟨r, hr, h3, h4⟩
  · push_neg at hov
    refine Or.inr fun r hr => ?_
    have := hov r hr
    omega

/-- Witness for C1 at the concrete scenario state. -/
theorem partition_spec_witness :
    ([((0 : Int), (20 : Int)), (25, 30)].Chain' (fun r t => r.2 < t.1) ∧
      (∀ r ∈ [((0 : Int), (20 : Int)), (25, 30)], r.1 < r.2) ∧
      ((5 : Int) < 28)) ∧
    (PartsGood (iterPartition [(0, 20), (25, 30)] 5 28) 5 28 ∧
      (iterPartition [(0, 20), (25, 30)] 5 28).Chain' (fun p q => p.2 = q.1) ∧
      (∀ x : Int,
        (∃ p ∈ iterPartition [(0, 20), (25, 30)] 5 28, p.1 ≤ x ∧ x < p.2) ↔
          (5 ≤ x ∧ x < 28)) ∧
      (∀ p ∈ iterPartition [(0, 20), (25, 30)] 5 28,
        (∃ r ∈ [((0 : Int), (20 : Int)), (25, 30)], r.1 ≤ p.1 ∧ p.2 ≤ r.2) ∨
        (∀ r ∈ [((0 : Int), (20 : Int)), (25, 30)], p.2 ≤ r.1 ∨ r.2 ≤ p.1))) :=
  ⟨⟨by rw [List.chain'_pair]; decide, by decide, by decide⟩,
    partition_spec.1 [(0, 20), (25, 30)] 5 28
      (by rw [List.chain'_pair]; decide) (by decide) (by decide)⟩

/-! ## Claim C2: the add invariant -/

/-- A sequence of `add(start, end)` calls applied to the empty range set. -/
def applyAdds (ops : List (Int × Int)) : List (Int × Int) :=
  ops.foldl (fun l p => addRange l p.1 p.2) []

theorem foldl_addRange_chain :
    ∀ (ops l : List (Int × Int)), l.Chain' rngOrd →
      (ops.foldl (fun acc p => addRange acc p.1 p.2) l).Chain' rngOrd := by
  intro ops
  induction ops with
  | nil => intro l h; exact h
  | cons p rest ih => intro l h; exact ih _ (addRange_chain h p.1 p.2)

/-- C2: after any sequence of `add` calls starting from the empty range
set, the stored ranges are pairwise disjoint and non-adjacent
(`fst.end < snd.start`) and sorted ascending by start; the concrete
scenario merges exactly as claimed. -/
theorem add_invariant :
    (∀ ops : List (Int × Int),
      (applyAdds ops).Pairwise (fun a b => a.2 < b.1 ∧ a.1 ≤ b.1)) ∧
    applyAdds [(0, 10)] = [(0, 10)] ∧
    applyAdds [(0, 10), (10, 20)] = [(0, 20)] ∧
    applyAdds [(0, 10), (10, 20), (25, 30)] = [(0, 20), (25, 30)] ∧
    applyAdds [(0, 10), (10, 20), (25, 30), (20, 25)] = [(0, 30)] := by
  refine ⟨?_, by decide, by decide, by decide, by decide⟩
  intro ops
  exact (@List.chain'_iff_pairwise (Int × Int) rngOrd _ _).1
    (foldl_addRange_chain ops [] (by simp))

/-! ## Claim C6: reversed pairs are not normalised -/

/-- C6 counterexample: the source never swaps a reversed pair, so
`add(5, 3)` stores `(5, 3)` itself and differs from `add(3, 5)`,
contradicting the claimed `add(start, end) = add(end, start)`. -/
theorem add_swap_counterexample :
    addRange [] 5 3 = [(5, 3)] ∧ addRange [] 3 5 = [(3, 5)] ∧
    addRange [] 5 3 ≠ addRange [] 3 5 := by decide

/-- C6 amended: for `start > end` no error is raised and the pair is
processed as given, without normalisation: on the empty range set the
reversed pair itself is stored, which differs from `add(end, start)`. -/
theorem add_no_swap {s e : Int} (h : e < s) :
    addRange [] s e = [(s, e)] ∧ addRange [] s e ≠ addRange [] e s := by
  have h1 : addRange [] s e = [(s, e)] := by
    simp [addRange, insort, coalesce, coalesceGo]
  have h2 : addRange [] e s = [(e, s)] := by
    simp [addRange, insort, coalesce, coalesceGo]
  refine ⟨h1, ?_⟩
  rw [h1, h2]
  intro heq
  simp only [List.cons.injEq, Prod.mk.injEq, and_true] at heq
  omega

/-- Witness for C6 at `add(5, 3)`. -/
theorem add_no_swap_witness :
    (3 : Int) < 5 ∧
      (addRange [] 5 3 = [(5, 3)] ∧ addRange [] 5 3 ≠ addRange [] 3 5) :=
  ⟨by decide, add_no_swap (by decide)⟩

/-! ## Claim C8: membership is whole-span containment -/

/-- C8: for `start <= end`, `__contains__((start, end))` holds iff some
single stored range contains the whole query span endpoint-wise; for
`start < end` that is exactly set containment of the half-open intervals.
A partial overlap is not a hit. -/
theorem contains_spec :
    (∀ (l : List (Int × Int)) (s e : Int), s ≤ e →
      (memRange l s e ↔ ∃ r ∈ l, r.1 ≤ s ∧ e ≤ r.2)) ∧
    (∀ (l : List (Int × Int)) (s e : Int), s < e →
      (memRange l s e ↔ ∃ r ∈ l, Set.Ico s e ⊆ Set.Ico r.1 r.2)) ∧
    ¬ memRange [(0, 10)] 5 15 := by
  refine ⟨?_, ?_, by decide⟩
  · intro l s e hse
    constructor
    · exact memRange_elim
    · rintro ⟨r, hr, h1, h2⟩
      exact memRange_intro hse hr h1 h2
  · intro l s e hse
    constructor
    · intro h
      obtain ⟨r, hr, h1, h2⟩ := memRange_elim h
      exact ⟨r, hr, Set.Ico_subset_Ico h1 h2⟩
    · rintro ⟨r, hr, hsub⟩
      obtain ⟨h1, h2⟩ := (Set.Ico_subset_Ico_iff hse).1 hsub
      exact memRange_intro (le_of_lt hse) hr h1 h2

/-- Witness for C8 on the stored range `(2, 20)` and query `(5, 15)`. -/
theorem contains_spec_witness :
    ((5 : Int) ≤ 15 ∧
      (memRange [(2, 20)] 5 15 ↔
        ∃ r ∈ [((2 : Int), (20 : Int))], r.1 ≤ 5 ∧ 15 ≤ r.2)) ∧
    ((5 : Int) < 15 ∧
      (memRange [(2, 20)] 5 15 ↔
        ∃ r ∈ [((2 : Int), (20 : Int))], Set.Ico 5 15 ⊆ Set.Ico r.1 r.2)) :=
  ⟨⟨by decide, contains_spec.1 [(2, 20)] 5 15 (by decide)⟩,
    ⟨by decide, contains_spec.2.1 [(2, 20)] 5 15 (by decide)⟩⟩

/-! ## Concrete states shared by the stream claims -/

def buf0 : Buf := ⟨fun _ => 0, 0⟩

/-- A freshly constructed stream: position 0, nothing cached, no response,
size unknown. -/
def freshSt : St := ⟨0, buf0, [], none, false, 0, none, false, false⟩

/-- A ten-byte resource on a fully cooperative server. -/
def envOk : Env := ⟨[10, 11, 12, 13, 14, 15, 16, 17, 18, 19], true, true⟩

/-- A server that exposes neither a usable Content-Length nor
Content-Range, so the size can never be resolved. -/
def envBare : Env := ⟨[10, 11, 12, 13, 14, 15, 16, 17, 18, 19], false, false⟩

/-- A stream that has already resolved the size 10 and sits at position 3. -/
def stResolved : St := ⟨3, buf0, [], none, false, 0, some 10, false, false⟩

/-- A stream at position 5 with the span `[0, 10)` cached and an open
response. -/
def stCached : St :=
  ⟨5, ⟨fun _ => 1, 10⟩, [(0, 10)], some ⟨7, true⟩, false, 10, some 10, false, false⟩

/-- A one-byte resource, used by the inconsistent-session scenario. -/
def envX : Env := ⟨[7], true, true⟩

/-- An inconsistent stream over `envX`: the open response is positioned at
offset 1 (not at `pos = 0`) and the cache buffer already holds five bytes
of value 9 that no stored range accounts for. -/
def stX : St :=
  ⟨0, ⟨fun _ => 9, 5⟩, [], some ⟨1, true⟩, false, 0, some 1, false, false⟩

/-- A consistent stream at position 2 over `envOk` with an aligned open
response and the size resolved. -/
def stW : St := ⟨2, buf0, [], some ⟨2, true⟩, false, 0, some 10, false, false⟩

/-- A stream at position 5 over `envOk` with an aligned open response, the
size resolved and nothing cached, about to over-read past the end. -/
def stC9 : St := ⟨5, buf0, [], some ⟨5, true⟩, false, 0, some 10, false, false⟩

/-! ## Claim C4: seek's return value -/

/-- C4: the claim says `seek` returns the new absolute position and fails
only for an End-relative seek with unresolvable size.  The failure half is
accurate, but the source's `seek` has no value-returning `return`
statement: it returns `None` on every path (modelled by the second
component), breaking the `io.IOBase.seek` contract the class inherits.
Here `seek(5, Start)` moves the position to 5 yet returns `None`, and
`seek(-10, End)` against an unresolvable server fails as claimed. -/
theorem seek_returns_none_bug :
    (∃ st1, seek envOk freshSt 5 0 = .ok (st1, none) ∧ st1.pos = 5) ∧
    seek envBare freshSt (-10) 2 = .error .sizeUnknown := by
  constructor
  · exact ⟨_, rfl, rfl⟩
  · rfl

/-! ## Claim C5: what close releases -/

/-- C5 counterexample: `close()` always calls `self.session.close()`, so
the shared transport session supplied at construction is closed,
contradicting the claim that it is never closed. -/
theorem close_transport_counterexample :
    (close stCached).transportClosed = true := rfl

/-- C5 amended: `close()` marks the current streaming response closed when
one is open, also closes the shared transport session, never touches the
cache buffer, and is idempotent. -/
theorem close_effects (st : St) :
    (close st).transportClosed = true ∧
    (close st).buf = st.buf ∧
    (close st).bufferClosed = st.bufferClosed ∧
    (close st).respClosed = (st.resp.isSome || st.respClosed) ∧
    close (close st) = close st := by
  refine ⟨rfl, rfl, rfl, ?_, ?_⟩
  · cases hr : st.resp <;> simp [close, hr]
  · cases hr : st.resp <;> simp [close, hr]

/-- `attempt_size_resolving` only ever writes the `server_full_size` memo:
the position, cache buffer, range set, streaming response, closure flags
and the `server_read` counter all pass through unchanged on every
resolution path. -/
theorem attemptSize_frame (env : Env) (st : St) :
    (attemptSize env st).2.pos = st.pos ∧
    (attemptSize env st).2.buf = st.buf ∧
    (attemptSize env st).2.ranges = st.ranges ∧
    (attemptSize env st).2.resp = st.resp ∧
    (attemptSize env st).2.respClosed = st.respClosed ∧
    (attemptSize env st).2.server_read = st.server_read ∧
    (attemptSize env st).2.transportClosed = st.transportClosed ∧
    (attemptSize env st).2.bufferClosed = st.bufferClosed := by
  rcases hs : st.server_full_size with _ | v
  · rcases hr : st.resp with _ | sess
    · simp only [attemptSize, attemptSizeFallback, hs, hr]
      split_ifs <;> simp_all
    · simp only [attemptSize, attemptSizeFallback, hs, hr]
      split_ifs <;> simp_all
  · simp [attemptSize, hs]

/-! ## Claim C7: position-preserving and cache-served seeks -/

/-- C7: a seek whose candidate position equals the current one is a strict
no-op, and a seek whose probe span is already covered by the range set
only updates the position: the streaming response, the counters, the
buffer and the range set are untouched and no new session is opened.
Stated for all three seek origins; for End the result is relative to the
state after size resolution, and the final conjunct shows that resolution
leaves everything except the `server_full_size` memo unchanged, so no
request observable in the state is issued on these paths. -/
theorem seek_noop_cached (env : Env) (st : St) (offset : Int) :
    (st.pos = offset → seek env st offset 0 = .ok (st, none)) ∧
    (st.pos ≠ offset → memRange st.ranges offset (offset + 1) →
      seek env st offset 0 = .ok ({ st with pos := offset }, none)) ∧
    (seek env st 0 1 = .ok (st, none)) ∧
    (offset ≠ 0 → memRange st.ranges (st.pos + offset) (st.pos + offset + 1) →
      seek env st offset 1 = .ok ({ st with pos := st.pos + offset }, none)) ∧
    (∀ S st1, attemptSize env st = (some S, st1) →
      (S - |offset| = st.pos →
        seek env st offset 2 = .ok ({ st1 with pos := st.pos }, none)) ∧
      (S - |offset| ≠ st.pos → memRange st1.ranges (S - |offset|) S →
        seek env st offset 2 = .ok ({ st1 with pos := S - |offset| }, none))) ∧
    ((attemptSize env st).2.pos = st.pos ∧
      (attemptSize env st).2.buf = st.buf ∧
      (attemptSize env st).2.ranges = st.ranges ∧
      (attemptSize env st).2.resp = st.resp ∧
      (attemptSize env st).2.respClosed = st.respClosed ∧
      (attemptSize env st).2.server_read = st.server_read ∧
      (attemptSize env st).2.transportClosed = st.transportClosed ∧
      (attemptSize env st).2.bufferClosed = st.bufferClosed) := by
  refine ⟨?_, ?_, ?_, ?_, ?_, attemptSize_frame env st⟩
  · intro h
    simp [seek, h]
  · intro h hm
    have hsk : seek env st offset 0 =
        seekCore env { st with pos := offset } st.pos offset
          (offset, offset + 1) true := by
      unfold seek
      rw [if_pos rfl, if_neg h]
    rw [hsk]
    unfold seekCore
    split_ifs with h1 <;> rfl
  · simp [seek, seekCore]
  · intro h hm
    have h0 : ¬(st.pos = st.pos + offset) := by omega
    have hsk : seek env st offset 1 =
        seekCore env { st with pos := st.pos + offset } st.pos (st.pos + offset)
          (st.pos + offset, st.pos + offset + 1) true := by
      unfold seek
      rw [if_neg (by decide : ¬((1 : Int) = 0)), if_pos rfl]
    rw [hsk]
    unfold seekCore
    split_ifs with h1 <;> rfl
  · intro S st1 hsz
    have hsk : seek env st offset 2 =
        seekCore env { st1 with pos := S + -|offset| } st.pos (-|offset|)
          (S + -|offset|, S) false := by
      unfold seek
      rw [if_neg (by decide : ¬((2 : Int) = 0)),
        if_neg (by decide : ¬((2 : Int) = 1)), if_pos rfl, hsz]
    constructor
    · intro hpos
      rw [hsk]
      unfold seekCore
      split_ifs with h1 h2
      · have he : S + -|offset| = st.pos := by omega
        rw [he]
      · exfalso
        apply h1
        show st.pos = S + -|offset|
        omega
      · exfalso
        apply h1
        show st.pos = S + -|offset|
        omega
      · exfalso
        apply h1
        show st.pos = S + -|offset|
        omega
    · intro hpos hm
      rw [hsk]
      unfold seekCore
      split_ifs with h1 h2
      · exfalso
        apply hpos
        have h1' : st.pos = S + -|offset| := h1
        omega
      · have he : S + -|offset| = S - |offset| := by omega
        rw [he]
      · exfalso
        apply h2
        show memRange st1.ranges (S + -|offset|) S
        have he : S + -|offset| = S - |offset| := by omega
        rw [he]
        exact hm
      · exfalso
        apply h2
        show memRange st1.ranges (S + -|offset|) S
        have he : S + -|offset| = S - |offset| := by omega
        rw [he]
        exact hm

/-- Witness for C7: no-op seek, cache-covered Start seek and cache-covered
End seek on the cached stream state. -/
theorem seek_noop_cached_witness :
    (stCached.pos = (5 : Int) ∧ seek envOk stCached 5 0 = .ok (stCached, none)) ∧
    (stCached.pos ≠ (7 : Int) ∧ memRange stCached.ranges 7 8 ∧
      seek envOk stCached 7 0 = .ok ({ stCached with pos := 7 }, none)) ∧
    (attemptSize envOk stCached = (some 10, stCached) ∧
      (10 : Int) - |(8 : Int)| ≠ stCached.pos ∧
      memRange stCached.ranges (10 - |(8 : Int)|) 10 ∧
      seek envOk stCached 8 2 = .ok ({ stCached with pos := 10 - |(8 : Int)| }, none)) :=
  ⟨⟨rfl, (seek_noop_cached envOk stCached 5).1 rfl⟩,
    ⟨by decide, by decide,
      (seek_noop_cached envOk stCached 7).2.1 (by decide) (by decide)⟩,
    ⟨rfl, by decide, by decide,
      ((seek_noop_cached envOk stCached 8).2.2.2.2.1 10 stCached rfl).2
        (by decide) (by decide)⟩⟩

/-! ## Claim C10: End-relative seeks negate the offset -/

/-- C10: `seek(o, End)` first replaces the offset by `-|o|`, so it behaves
identically to `seek(-o, End)`, and when the size `S` resolves the new
logical position is `S - |o|` — seeking forward past the end via an
End-relative seek is impossible. -/
theorem seek_end_negates (env : Env) (st : St) (offset : Int) :
    seek env st offset 2 = seek env st (-offset) 2 ∧
    (∀ S st1, attemptSize env st = (some S, st1) →
      ∃ st', seek env st offset 2 = .ok (st', none) ∧
        st'.pos = S - |offset|) := by
  constructor
  · simp [seek, abs_neg]
  · intro S st1 hsz
    have hsk : seek env st offset 2 =
        seekCore env { st1 with pos := S + -|offset| } st.pos (-|offset|)
          (S + -|offset|, S) false := by
      unfold seek
      rw [if_neg (by decide : ¬((2 : Int) = 0)),
        if_neg (by decide : ¬((2 : Int) = 1)), if_pos rfl, hsz]
    rw [hsk]
    unfold seekCore
    split_ifs with ha hb
    · exact ⟨_, rfl, show S + -|offset| = S - |offset| by omega⟩
    · exact ⟨_, rfl, show S + -|offset| = S - |offset| by omega⟩
    · exact ⟨_, rfl, show S + -|offset| = S - |offset| by omega⟩
    · exact ⟨_, rfl, show S + -|offset| = S - |offset| by omega⟩

/-- Witness for C10 on the size-resolved stream. -/
theorem seek_end_negates_witness :
    attemptSize envOk stResolved = (some 10, stResolved) ∧
    (∃ st', seek envOk stResolved 2 2 = .ok (st', none) ∧
      st'.pos = 10 - |(2 : Int)|) :=
  ⟨rfl, (seek_end_negates envOk stResolved 2).2 10 stResolved rfl⟩

/-! ## Buffer, session and seek helper lemmas for the read proofs -/

theorem readData_length (d : Int → Nat) (off : Int) :
    ∀ m : Nat, (readData d off m).length = m := by
  intro m
  induction m generalizing off with
  | zero => rfl
  | succ k ih => simp [readData, ih]

theorem readData_getD (d : Int → Nat) :
    ∀ (m : Nat) (off : Int) (i : Nat), i < m →
      (readData d off m).getD i 0 = d (off + i) := by
  intro m
  induction m with
  | zero => intro off i h; omega
  | succ k ih =>
    intro off i h
    cases i with
    | zero => simp [readData]
    | succ j =>
      have := ih (off + 1) j (by omega)
      simp only [readData, List.getD_cons_succ]
      rw [this]
      congr 1
      omega

theorem bufRead_length {b : Buf} {off k : Int} (h0 : 0 ≤ k)
    (hlen : off + k ≤ b.len) : (bufRead b off k).length = k.toNat := by
  unfold bufRead
  rw [if_neg (by omega), readData_length]
  omega

theorem bufRead_getD {b : Buf} {off k : Int} (h0 : 0 ≤ k)
    (hlen : off + k ≤ b.len) {i : Nat} (hi : (i : Int) < k) :
    (bufRead b off k).getD i 0 = b.data (off + i) := by
  unfold bufRead
  rw [if_neg (by omega)]
  exact readData_getD b.data _ off i (by omega)

theorem bufRead_zero (b : Buf) (off : Int) : bufRead b off 0 = [] := by
  unfold bufRead
  rw [if_neg (by omega)]
  show readData b.data off (min (off + 0) b.len - off).toNat = []
  have h : (min (off + 0) b.len - off).toNat = 0 := by omega
  rw [h]
  rfl

theorem bufWrite_nil (b : Buf) (off : Int) : bufWrite b off [] = b := by
  simp [bufWrite]

theorem bufWrite_data_in {b : Buf} {off : Int} {bs : List Nat} {x : Int}
    (h1 : off ≤ x) (h2 : x < off + bs.length) :
    (bufWrite b off bs).data x = bs.getD (x - off).toNat 0 := by
  have hbs : bs ≠ [] := by
    intro h
    subst h
    simp at h2
    omega
  unfold bufWrite
  rw [if_neg hbs]
  simp only []
  rw [if_pos ⟨h1, h2⟩]

theorem bufWrite_data_lo {b : Buf} {off : Int} {bs : List Nat} {x : Int}
    (h : x < off) (h2 : x < b.len) :
    (bufWrite b off bs).data x = b.data x := by
  by_cases hbs : bs = []
  · rw [hbs, bufWrite_nil]
  · unfold bufWrite
    rw [if_neg hbs]
    simp only []
    rw [if_neg (by omega), if_neg (by omega)]

theorem bufWrite_len_ge (b : Buf) (off : Int) (bs : List Nat) :
    b.len ≤ (bufWrite b off bs).len := by
  by_cases hbs : bs = []
  · rw [hbs, bufWrite_nil]
  · unfold bufWrite
    rw [if_neg hbs]
    simp only []
    exact le_max_left _ _

theorem bufWrite_len_covers {b : Buf} {off : Int} {bs : List Nat}
    (hbs : bs ≠ []) : off + bs.length ≤ (bufWrite b off bs).len := by
  unfold bufWrite
  rw [if_neg hbs]
  simp only []
  exact le_max_right _ _

theorem sessRead_spec (env : Env) (s : Session) {k : Int} (h0 : 0 ≤ k)
    (hs : 0 ≤ s.spos) (hb : s.spos + k ≤ contentLen env) :
    ((sessRead env s k).1).length = k.toNat ∧
    (sessRead env s k).2.spos = s.spos + k ∧
    (∀ i : Nat, (i : Int) < k →
      ((sessRead env s k).1).getD i 0 =
        env.content.getD (s.spos + i).toNat 0) := by
  have hk : ¬(k < 0) := by omega
  have hbeq : sessBytes env s k = (env.content.drop s.spos.toNat).take k.toNat := by
    unfold sessBytes
    rw [if_neg hk]
  have hlen : ((env.content.drop s.spos.toNat).take k.toNat).length = k.toNat := by
    rw [List.length_take, List.length_drop]
    unfold contentLen at hb
    omega
  refine ⟨?_, ?_, ?_⟩
  · simp only [sessRead, hbeq]
    exact hlen
  · simp only [sessRead, hbeq]
    rw [hlen]
    omega
  · intro i hi
    simp only [sessRead, hbeq]
    have hi1 : i < ((env.content.drop s.spos.toNat).take k.toNat).length := by
      rw [hlen]; omega
    have hi2 : i < (env.content.drop s.spos.toNat).length := by
      rw [List.length_take] at hi1; omega
    have hi3 : s.spos.toNat + i < env.content.length := by
      rw [List.length_drop] at hi2; omega
    rw [List.getD_eq_getElem _ _ hi1, List.getElem_take, List.getElem_drop]
    have he : (s.spos + (i : Int)).toNat = s.spos.toNat + i := by omega
    rw [he, List.getD_eq_getElem _ _ hi3]

theorem addRange_nil (s e : Int) : addRange [] s e = [(s, e)] := by
  simp [addRange, insort, coalesce, coalesceGo]

theorem iterPartition_nil (s e : Int) : iterPartition [] s e = [(s, e)] := rfl

theorem iterPartition_self (l : List (Int × Int)) (c : Int) :
    iterPartition l c c = [(c, c)] := by
  unfold iterPartition
  have : partitioners l c c = [] := by
    unfold partitioners
    rw [List.filter_eq_nil_iff]
    intro p _
    simp only [decide_eq_true_eq]
    omega
  rw [this]
  rfl

theorem memRange_probe {l : List (Int × Int)} {c : Int} :
    memRange l c (c + 1) ↔ coveredIn c l := by
  constructor
  · intro h
    obtain ⟨r, hr, h1, h2⟩ := memRange_elim h
    exact ⟨r, hr, h1, by omega⟩
  · rintro ⟨r, hr, h1, h2⟩
    exact memRange_intro (by omega) hr h1 (by omega)

theorem not_covered_of_not_memRange_self {l : List (Int × Int)} {c : Int}
    (h : ¬ memRange l c c) : ¬ coveredIn c l := by
  rintro ⟨r, hr, h1, h2⟩
  exact h ⟨r, hr, h1, by omega, h1, by omega⟩

theorem attemptSize_resolved {env : Env} {st : St} {S : Int}
    (h : st.server_full_size = some S) : attemptSize env st = (some S, st) := by
  unfold attemptSize
  rw [h]

/-- A seek to the current position is a strict no-op. -/
theorem seek_same {env : Env} {st : St} {o : Int} (h : st.pos = o) :
    seek env st o 0 = .ok (st, none) := by
  unfold seek
  rw [if_pos rfl, if_pos h]

/-- A seek into a cached byte only updates the position. -/
theorem seek_cached {env : Env} {st : St} {o : Int} (h : st.pos ≠ o)
    (hm : memRange st.ranges o (o + 1)) :
    seek env st o 0 = .ok ({ st with pos := o }, none) := by
  have hsk : seek env st o 0 =
      seekCore env { st with pos := o } st.pos o (o, o + 1) true := by
    unfold seek
    rw [if_pos rfl, if_neg h]
  rw [hsk]
  unfold seekCore
  split_ifs with h1 <;> rfl

/-- A seek to an uncached byte: either a no-op when already there (the
caller must then supply an aligned open session), or a fresh session
anchored at the target. -/
theorem seek_for_miss (env : Env) (st : St) {a : Int}
    (hnc : ¬ coveredIn a st.ranges)
    (hsess : st.pos = a → ∃ s, st.resp = some s ∧ s.spos = a) :
    ∃ st1 s, seek env st a 0 = .ok (st1, none) ∧
      st1.resp = some s ∧ s.spos = a ∧
      st1.ranges = st.ranges ∧ st1.buf = st.buf ∧
      st1.server_read = st.server_read ∧
      st1.server_full_size = st.server_full_size ∧ st1.pos = a := by
  by_cases hp : st.pos = a
  · obtain ⟨s, hs1, hs2⟩ := hsess hp
    exact ⟨st, s, seek_same hp, hs1, hs2, rfl, rfl, rfl, rfl, hp⟩
  · have hnm : ¬ memRange st.ranges a (a + 1) := fun hmm => hnc (memRange_probe.1 hmm)
    have hfin : seek env st a 0 = .ok ({ st with pos := a, resp := some (Session.mk a env.rangeHasCR), respClosed := false }, none) := by
      have hsk : seek env st a 0 =
          seekCore env { st with pos := a } st.pos a (a, a + 1) true := by
        unfold seek
        rw [if_pos rfl, if_neg hp]
      rw [hsk]
      unfold seekCore
      split_ifs with h1 h2
      · exact absurd (show st.pos = a from h1) hp
      · rfl
      · exact absurd rfl h2
    exact ⟨_, Session.mk a env.rangeHasCR, hfin, rfl, rfl, rfl, rfl, rfl, rfl, rfl⟩

/-- Each cell of a partition is uniformly covered or uniformly uncovered. -/
theorem partition_dichotomy {l : List (Int × Int)} (hc : l.Chain' rngOrd)
    (hwf : ∀ r ∈ l, r.1 < r.2) {s e : Int} (hse : s < e) :
    ∀ p ∈ iterPartition l s e,
      (∀ x, p.1 ≤ x → x < p.2 → coveredIn x l) ∨
      (∀ x, p.1 ≤ x → x < p.2 → ¬ coveredIn x l) := by
  intro p hp
  by_cases hov : ∃ r ∈ l, p.1 < r.2 ∧ r.1 < p.2
  · obtain ⟨r, hr, h1, h2⟩ := hov
    obtain ⟨h3, h4⟩ := partition_cell_contained hc hwf hse p hp r hr h1 h2
    exact Or.inl fun x hx1 hx2 => ⟨r, hr, by omega, by omega⟩
  · push_neg at hov
    refine Or.inr fun x hx1 hx2 => ?_
    rintro ⟨r, hr, hx3, hx4⟩
    have := hov r hr
    omega

/-- The read loop over a fully cached partition: the state is untouched and
the produced bytes are read back from the buffer. -/
theorem readLoop_covered (env : Env) :
    ∀ (parts : List (Int × Int)) (st : St) (c d : Int),
      PartsGood parts c d →
      st.ranges.Chain' rngOrd →
      (∀ r ∈ st.ranges, r.1 < r.2 ∧ r.2 ≤ st.buf.len) →
      0 ≤ c →
      (∀ x, c ≤ x → x < d → coveredIn x st.ranges) →
      ∃ chunk, readLoop env st parts = .ok (st, chunk) ∧
        chunk.length = (d - c).toNat ∧
        (∀ x, c ≤ x → x < d → chunk.getD (x - c).toNat 0 = st.buf.data x) := by
  intro parts
  induction parts with
  | nil =>
    intro st c d hpg _ _ _ _
    have hcd : c = d := hpg
    refine ⟨[], rfl, by simp [hcd], ?_⟩
    intro x h1 h2
    omega
  | cons p rest ih =>
    obtain ⟨a, b⟩ := p
    intro st c d hpg hchain hwf hc hcov
    obtain ⟨hac, hab, hrest⟩ := hpg
    subst hac
    have hbd : b ≤ d := partsGood_le hrest
    have hmem : memRange st.ranges a b :=
      memRange_of_covered hchain hab (fun x hx1 hx2 => hcov x hx1 (by omega))
    obtain ⟨r, hr, hr1, hr2⟩ := memRange_elim hmem
    have hblen : b ≤ st.buf.len := le_trans hr2 (hwf r hr).2
    obtain ⟨chunk', heq', hlen', hagree'⟩ :=
      ih st b d hrest hchain hwf (by omega)
        (fun x hx1 hx2 => hcov x (by omega) hx2)
    have hlb : (bufRead st.buf a (b - a)).length = (b - a).toNat :=
      bufRead_length (by omega) (by omega)
    refine ⟨bufRead st.buf a (b - a) ++ chunk', ?_, ?_, ?_⟩
    · simp only [readLoop]
      rw [if_neg (by omega : ¬(a < 0)), if_pos hmem, heq']
    · rw [List.length_append, hlen', hlb]
      omega
    · intro x hx1 hx2
      by_cases hxb : x < b
      · rw [List.getD_append _ _ _ _ (by rw [hlb]; omega)]
        have hg := @bufRead_getD st.buf a (b - a)
          (by omega) (by omega) (x - a).toNat (by omega)
        rw [hg]
        congr 1
        omega
      · rw [List.getD_append_right _ _ _ _ (by rw [hlb]; omega), hlb]
        have hidx : (x - a).toNat - (b - a).toNat = (x - b).toNat := by omega
        rw [hidx]
        exact hagree' x (by omega) hx2

/-- The read loop over an arbitrary partition of `[c, d)` with
`d` inside the resource: it succeeds, produces exactly `d - c` bytes
written back into the buffer, extends the coverage by `[c, d)`, and leaves
the already-written buffer prefix and the resolved size untouched.
The session hypothesis mirrors the source's reliance on the current
response when the first cell starts exactly at the current position. -/
theorem readLoop_fill (env : Env) :
    ∀ (parts : List (Int × Int)) (st : St) (c d : Int),
      PartsGood parts c d →
      0 ≤ c → d ≤ contentLen env →
      st.ranges.Chain' rngOrd →
      (∀ r ∈ st.ranges, 0 ≤ r.1 ∧ r.1 < r.2 ∧ r.2 ≤ st.buf.len) →
      (∀ p ∈ parts,
        (∀ x, p.1 ≤ x → x < p.2 → coveredIn x st.ranges) ∨
        (∀ x, p.1 ≤ x → x < p.2 → ¬ coveredIn x st.ranges)) →
      st.pos ≤ c →
      (st.pos = c → ¬ coveredIn c st.ranges →
        ∃ s, st.resp = some s ∧ s.spos = c) →
      ∃ st' chunk, readLoop env st parts = .ok (st', chunk) ∧
        chunk.length = (d - c).toNat ∧
        st'.ranges.Chain' rngOrd ∧
        (∀ r ∈ st'.ranges, 0 ≤ r.1 ∧ r.1 < r.2 ∧ r.2 ≤ st'.buf.len) ∧
        (∀ x : Int, coveredIn x st'.ranges ↔
          (coveredIn x st.ranges ∨ (c ≤ x ∧ x < d))) ∧
        (∀ x, c ≤ x → x < d → st'.buf.data x = chunk.getD (x - c).toNat 0) ∧
        (∀ x, x < c → x < st.buf.len → st'.buf.data x = st.buf.data x) ∧
        st.buf.len ≤ st'.buf.len ∧
        st'.server_full_size = st.server_full_size ∧
        st'.pos ≤ d := by
  intro parts
  induction parts with
  | nil =>
    intro st c d hpg hc hd hchain hwf _ hposle _
    have hcd : c = d := hpg
    subst hcd
    refine ⟨st, [], rfl, by simp, hchain, hwf, ?_, ?_, ?_, le_rfl, rfl, hposle⟩
    · intro x
      constructor
      · exact Or.inl
      · rintro (h | h)
        · exact h
        · omega
    · intro x h1 h2
      omega
    · intro x _ _
      rfl
  | cons p rest ih =>
    obtain ⟨a, b⟩ := p
    intro st c d hpg hc hd hchain hwf hdich hposle hsess
    obtain ⟨hac, hab, hrest⟩ := hpg
    subst hac
    have hbd : b ≤ d := partsGood_le hrest
    rcases hdich (a, b) (by simp) with hcv | hunc
    · -- the cell is fully cached: served from the buffer, state unchanged
      have hmem : memRange st.ranges a b :=
        memRange_of_covered hchain hab (fun x hx1 hx2 => hcv x hx1 hx2)
      obtain ⟨r, hr, hr1, hr2⟩ := memRange_elim hmem
      have hblen : b ≤ st.buf.len := le_trans hr2 (hwf r hr).2.2
      obtain ⟨st', chunk', heq', hlen', hchain', hwf', hcov', hagree',
        hframe', hlenmono', hsfs', hpos'⟩ :=
        ih st b d hrest (by omega) hd hchain hwf
          (fun p hp => hdich p (by simp [hp]))
          (by omega) (fun hp _ => absurd hp (by omega))
      have hlb : (bufRead st.buf a (b - a)).length = (b - a).toNat :=
        bufRead_length (by omega) (by omega)
      refine ⟨st', bufRead st.buf a (b - a) ++ chunk', ?_, ?_, hchain', hwf',
        ?_, ?_, ?_, hlenmono', hsfs', hpos'⟩
      · simp only [readLoop]
        rw [if_neg (by omega : ¬(a < 0)), if_pos hmem, heq']
      · rw [List.length_append, hlen', hlb]
        omega
      · intro x
        rw [hcov' x]
        constructor
        · rintro (h | h)
          · exact Or.inl h
          · exact Or.inr ⟨by omega, h.2⟩
        · rintro (h | h)
          · exact Or.inl h
          · by_cases hxb : b ≤ x
            · exact Or.inr ⟨hxb, h.2⟩
            · exact Or.inl (hcv x h.1 (by omega))
      · intro x hx1 hx2
        by_cases hxb : x < b
        · rw [List.getD_append _ _ _ _ (by rw [hlb]; omega)]
          have hfr : st'.buf.data x = st.buf.data x :=
            hframe' x (by omega) (by omega)
          rw [hfr]
          have hg := @bufRead_getD st.buf a (b - a)
            (by omega) (by omega) (x - a).toNat (by omega)
          rw [hg]
          congr 1
          omega
        · rw [List.getD_append_right _ _ _ _ (by rw [hlb]; omega), hlb]
          have hidx : (x - a).toNat - (b - a).toNat = (x - b).toNat := by omega
          rw [hidx]
          exact hagree' x (by omega) hx2
      · intro x hx1 hx2
        exact hframe' x (by omega) hx2
    · -- cache miss: seek to the cell start and pull it from the session
      have hnca : ¬ coveredIn a st.ranges := hunc a le_rfl hab
      have hnmem : ¬ memRange st.ranges a b :=
        fun h => hnca (memRange_covers h le_rfl hab)
      obtain ⟨st1, s, heqseek, hresp, hspos, hranges1, hbuf1, hsr1, hsfs1,
        hpos1⟩ :=
        seek_for_miss env st hnca (fun hp => hsess hp hnca)
      have hsp0 : 0 ≤ s.spos := by omega
      obtain ⟨hlenbs, hspos', hbytes⟩ :=
        sessRead_spec env s (show (0 : Int) ≤ b - a by omega) hsp0
          (by rw [hspos]; omega)
      have hbs_ne : (sessRead env s (b - a)).1 ≠ [] := by
        intro h
        rw [h] at hlenbs
        simp at hlenbs
        omega
      have hbslen : (((sessRead env s (b - a)).1).length : Int) = b - a := by
        rw [hlenbs]; omega
      -- the state after the miss step
      have hlen2ge : st.buf.len ≤
          (bufWrite st1.buf a (sessRead env s (b - a)).1).len := by
        rw [hbuf1] at *
        exact bufWrite_len_ge st.buf a _
      have hlen2b : b ≤ (bufWrite st1.buf a (sessRead env s (b - a)).1).len := by
        have := @bufWrite_len_covers st1.buf a (sessRead env s (b - a)).1 hbs_ne
        omega
      have hchain2 : (addRange st1.ranges a b).Chain' rngOrd := by
        rw [hranges1]
        exact addRange_chain hchain a b
      have hwf2 : ∀ r ∈ addRange st1.ranges a b,
          0 ≤ r.1 ∧ r.1 < r.2 ∧
            r.2 ≤ (bufWrite st1.buf a (sessRead env s (b - a)).1).len := by
        rw [hranges1]
        refine addRange_forall _ ?_ ?_ ?_
        · rintro ⟨c1, c2⟩ ⟨q1, q2⟩ hcq hq
          have hc0 : (0 : Int) ≤ c1 := hcq.1
          have hcw : c1 < c2 := hcq.2.1
          have hcl : c2 ≤ (bufWrite st1.buf a (sessRead env s (b - a)).1).len :=
            hcq.2.2
          have hql : q2 ≤ (bufWrite st1.buf a (sessRead env s (b - a)).1).len :=
            hq.2.2
          refine ⟨hc0, ?_, ?_⟩
          · show c1 < max c2 q2
            omega
          · show max c2 q2 ≤ (bufWrite st1.buf a (sessRead env s (b - a)).1).len
            omega
        · intro r hr
          obtain ⟨h1, h2, h3⟩ := hwf r hr
          exact ⟨h1, h2, by omega⟩
        · exact ⟨by omega, hab, by omega⟩
      have hcov2 : ∀ x, coveredIn x (addRange st1.ranges a b) ↔
          (coveredIn x st.ranges ∨ (a ≤ x ∧ x < b)) := by
        intro x
        rw [hranges1]
        exact coveredIn_addRange (hchain.imp fun _ _ h => rngOrd_le1 h) a b x
      obtain ⟨st', chunk', heq', hlen', hchain', hwf', hcov', hagree',
        hframe', hlenmono', hsfs', hpos'⟩ :=
        ih { st1 with
              buf := bufWrite st1.buf a (sessRead env s (b - a)).1,
              resp := some (sessRead env s (b - a)).2,
              server_read :=
                st1.server_read + ((sessRead env s (b - a)).1).length,
              ranges := addRange st1.ranges a b }
          b d hrest (by omega) hd hchain2 hwf2
          (by
            intro p hp
            have hpb := (partsGood_bounds hrest p hp).1
            rcases hdich p (by simp [hp]) with hcvp | huncp
            · exact Or.inl fun x hx1 hx2 =>
                (hcov2 x).2 (Or.inl (hcvp x hx1 hx2))
            · refine Or.inr fun x hx1 hx2 hcx => ?_
              rcases (hcov2 x).1 hcx with hcx | hcx
              · exact huncp x hx1 hx2 hcx
              · omega)
          (by show st1.pos ≤ b; omega)
          (by
            intro hp _
            have hp' : st1.pos = b := hp
            exact absurd hp' (by omega))
      refine ⟨st', (sessRead env s (b - a)).1 ++ chunk', ?_, ?_, hchain',
        hwf', ?_, ?_, ?_, ?_, ?_, hpos'⟩
      · simp only [readLoop]
        rw [if_neg (by omega : ¬(a < 0)), if_neg hnmem]
        simp only [heqseek, hresp, heq']
      · rw [List.length_append, hlen', hlenbs]
        omega
      · intro x
        rw [hcov' x, hcov2 x]
        constructor
        · rintro ((h | h) | h)
          · exact Or.inl h
          · exact Or.inr ⟨by omega, by omega⟩
          · exact Or.inr ⟨by omega, h.2⟩
        · rintro (h | h)
          · exact Or.inl (Or.inl h)
          · by_cases hxb : x < b
            · exact Or.inl (Or.inr ⟨by omega, hxb⟩)
            · exact Or.inr ⟨by omega, h.2⟩
      · intro x hx1 hx2
        by_cases hxb : x < b
        · rw [List.getD_append _ _ _ _ (by omega)]
          have hfr : st'.buf.data x =
              (bufWrite st1.buf a (sessRead env s (b - a)).1).data x :=
            hframe' x (by omega)
              (by show x < (bufWrite st1.buf a (sessRead env s (b - a)).1).len
                  omega)
          rw [hfr, bufWrite_data_in (by omega) (by omega)]
        · rw [List.getD_append_right _ _ _ _ (by omega)]
          have hagx := hagree' x (by omega) hx2
          rw [hagx]
          congr 1
          omega
      · intro x hx1 hx2
        have hfr : st'.buf.data x =
            (bufWrite st1.buf a (sessRead env s (b - a)).1).data x :=
          hframe' x (by omega)
            (by show x < (bufWrite st1.buf a (sessRead env s (b - a)).1).len
                omega)
        rw [hfr, hbuf1]
        exact bufWrite_data_lo (by omega) hx2
      · have := hlen2ge
        have h2 : (bufWrite st1.buf a (sessRead env s (b - a)).1).len ≤
            st'.buf.len := hlenmono'
        omega
      · have h1 : st'.server_full_size = st1.server_full_size := hsfs'
        rw [h1, hsfs1]

theorem sessRead_zero (env : Env) (s : Session) : sessRead env s 0 = ([], s) := by
  simp [sessRead, sessBytes]

/-- A zero-length read returns no bytes and leaves the observable stream
state (position, buffer, counters, size) unchanged; an aligned session
survives it. -/
theorem read_zero (env : Env) (st : St) {S : Int}
    (hsfs : st.server_full_size = some S)
    (hpos0 : 0 ≤ st.pos)
    (hsess : ¬ coveredIn st.pos st.ranges →
      ∃ s, st.resp = some s ∧ s.spos = st.pos) :
    ∃ st1, read env st (some 0) = .ok (st1, []) ∧
      st1.pos = st.pos ∧ st1.buf = st.buf ∧
      st1.server_read = st.server_read ∧
      st1.server_full_size = some S ∧
      (¬ coveredIn st1.pos st1.ranges →
        ∃ s, st1.resp = some s ∧ s.spos = st1.pos) := by
  have hsz := @attemptSize_resolved env st S hsfs
  have h0 : st.pos + (0 : Int) = st.pos := by omega
  have hpart : iterPartition st.ranges st.pos (st.pos + 0) =
      [(st.pos, st.pos)] := by
    rw [h0, iterPartition_self]
  have hsub : st.pos - st.pos = (0 : Int) := by omega
  by_cases hm : memRange st.ranges st.pos st.pos
  · have hloop : readLoop env st [(st.pos, st.pos)] = .ok (st, []) := by
      simp only [readLoop, if_neg (show ¬(st.pos < 0) by omega), if_pos hm,
        hsub, bufRead_zero, List.nil_append]
    have hread : read env st (some 0) =
        .ok ({ st with pos := st.pos + (([] : List Nat).length : Int) }, []) := by
      unfold read
      simp only [hsz, hpart, hloop]
    refine ⟨_, hread, by simp, rfl, rfl, hsfs, ?_⟩
    intro hnc
    obtain ⟨s, h1, h2⟩ := hsess (by simpa using hnc)
    exact ⟨s, h1, by simpa using h2⟩
  · have hnc : ¬ coveredIn st.pos st.ranges := not_covered_of_not_memRange_self hm
    obtain ⟨s, hresp, hspos⟩ := hsess hnc
    have hsrz : sessRead env s 0 = ([], s) := sessRead_zero env s
    have hloop : readLoop env st [(st.pos, st.pos)] = .ok ({ st with resp := some s, ranges := addRange st.ranges st.pos st.pos }, []) := by
      simp only [readLoop, if_neg (show ¬(st.pos < 0) by omega), if_neg hm,
        seek_same (Eq.refl st.pos), hresp, hsub, hsrz, bufWrite_nil,
        List.length_nil, Nat.cast_zero, add_zero, List.nil_append]
    have hread : read env st (some 0) = .ok ({ st with resp := some s, ranges := addRange st.ranges st.pos st.pos, pos := st.pos + (([] : List Nat).length : Int) }, []) := by
      unfold read
      simp only [hsz, hpart, hloop]
    refine ⟨_, hread, by simp, rfl, rfl, hsfs, ?_⟩
    intro _
    exact ⟨s, rfl, by simpa using hspos⟩

/-! ## Claim C3: repeated reads of the same span -/

/-- The stream-consistency invariant under which repeated reads are
byte-identical: the size is resolved to the resource length, the stored
ranges satisfy the invariant and lie inside the written buffer extent, the
position is non-negative, and when the current position is uncached the
open response is positioned exactly there (which is how the source's
`read` consumes an existing response without seeking). -/
def GoodState (env : Env) (st : St) : Prop :=
  st.server_full_size = some (contentLen env) ∧
  st.ranges.Chain' rngOrd ∧
  (∀ r ∈ st.ranges, 0 ≤ r.1 ∧ r.1 < r.2 ∧ r.2 ≤ st.buf.len) ∧
  0 ≤ st.pos ∧
  (¬ coveredIn st.pos st.ranges → ∃ s, st.resp = some s ∧ s.spos = st.pos)

/-- C3 counterexample: as stated over every stream state the claim fails.
On a fresh stream (no response open yet) `read(5)` raises `RuntimeError`
instead of returning bytes, and on a stream whose open response is not
positioned at `pos` (content `[7]`, response already past the end, a
pre-filled 5-byte cache buffer) the first `read(3)` returns `b""` while
the second returns the three cached bytes `9 9 9`. -/
theorem read_repeat_counterexample :
    read envOk freshSt (some 5) = .error .runtime ∧
    (∃ stA bA stB stC bB,
      read envX stX (some 3) = .ok (stA, bA) ∧
      seek envX stA 0 0 = .ok (stB, none) ∧
      read envX stB (some 3) = .ok (stC, bB) ∧
      bA ≠ bB) := by
  refine ⟨rfl, _, _, _, _, _, rfl, rfl, rfl, by decide⟩

/-- C3 amended: on every stream state satisfying the consistency invariant
`GoodState` and every bounded count `n` with `pos + n` inside the
resource, reading `n` bytes twice (seeking back to `pos` in between)
succeeds both times with byte-identical results, and the second read
leaves the upstream-bytes counter `server_read` unchanged. -/
theorem read_repeat_cached (env : Env) (st : St) (n : Nat)
    (hgood : GoodState env st)
    (hn : st.pos + (n : Int) ≤ contentLen env) :
    ∃ st1 b1 st2 st3 b2,
      read env st (some (n : Int)) = .ok (st1, b1) ∧
      seek env st1 st.pos 0 = .ok (st2, none) ∧
      read env st2 (some (n : Int)) = .ok (st3, b2) ∧
      b1 = b2 ∧
      st3.server_read = st1.server_read := by
  obtain ⟨hsfs, hchain, hwf, hpos0, hsess⟩ := hgood
  rcases Nat.eq_zero_or_pos n with hn0 | hnpos
  · subst hn0
    simp only [Nat.cast_zero]
    obtain ⟨st1, hr1, hp1, hb1, hsr1, hsfs1, hsess1⟩ :=
      read_zero env st hsfs hpos0 hsess
    have hseekback : seek env st1 st.pos 0 = .ok (st1, none) :=
      seek_same (by rw [hp1])
    obtain ⟨st3, hr2, hp2, hb2, hsr2, hsfs2, hsess2⟩ :=
      read_zero env st1 hsfs1 (by omega) hsess1
    exact ⟨st1, [], st1, st3, [], hr1, hseekback, hr2, rfl, by rw [hsr2]⟩
  · have hlt : st.pos < st.pos + (n : Int) := by omega
    have hwfs : ∀ r ∈ st.ranges, r.1 < r.2 := fun r hr => (hwf r hr).2.1
    have hpg := partsGood_iterPartition hchain hwfs hlt
    have hdich := partition_dichotomy hchain hwfs hlt
    obtain ⟨st1', chunk, hloopEq, hlen, hchain', hwf', hcov', hagree',
      hframe', hlenmono', hsfs', hpos'⟩ :=
      readLoop_fill env (iterPartition st.ranges st.pos (st.pos + (n : Int)))
        st st.pos (st.pos + (n : Int)) hpg hpos0 hn hchain hwf hdich le_rfl
        (fun _ hnc => hsess hnc)
    have hsz := @attemptSize_resolved env st (contentLen env) hsfs
    have hread1 : read env st (some (n : Int)) =
        .ok ({ st1' with pos := st1'.pos + (chunk.length : Int) }, chunk) := by
      unfold read
      simp only [hsz, hloopEq]
    have hcovp : coveredIn st.pos st1'.ranges :=
      (hcov' st.pos).2 (Or.inr ⟨le_rfl, by omega⟩)
    have hmemp : memRange st1'.ranges st.pos (st.pos + 1) :=
      memRange_probe.2 hcovp
    have hseekback : ∃ st2,
        seek env { st1' with pos := st1'.pos + (chunk.length : Int) } st.pos 0 =
          .ok (st2, none) ∧
        st2.ranges = st1'.ranges ∧ st2.buf = st1'.buf ∧
        st2.server_read = st1'.server_read ∧
        st2.server_full_size = st1'.server_full_size ∧ st2.pos = st.pos := by
      by_cases hpq :
        ({ st1' with pos := st1'.pos + (chunk.length : Int) } : St).pos = st.pos
      · exact ⟨_, seek_same hpq, rfl, rfl, rfl, rfl, hpq⟩
      · refine ⟨_, seek_cached hpq hmemp, rfl, rfl, rfl, rfl, rfl⟩
    obtain ⟨st2, hseekEq, hr2, hb2, hsr2, hsfs2, hp2⟩ := hseekback
    have hchain2 : st2.ranges.Chain' rngOrd := by rw [hr2]; exact hchain'
    have hwfs2 : ∀ r ∈ st2.ranges, r.1 < r.2 := by
      rw [hr2]
      exact fun r hr => (hwf' r hr).2.1
    have hwf2 : ∀ r ∈ st2.ranges, r.1 < r.2 ∧ r.2 ≤ st2.buf.len := by
      rw [hr2, hb2]
      exact fun r hr => ⟨(hwf' r hr).2.1, (hwf' r hr).2.2⟩
    have hpg2 := partsGood_iterPartition hchain2 hwfs2
      (show st2.pos < st2.pos + (n : Int) by omega)
    have hcovall : ∀ x, st2.pos ≤ x → x < st2.pos + (n : Int) →
        coveredIn x st2.ranges := by
      intro x h1 h2
      rw [hr2]
      exact (hcov' x).2 (Or.inr ⟨by omega, by omega⟩)
    obtain ⟨chunk2, hloop2, hlen2, hagree2⟩ :=
      readLoop_covered env
        (iterPartition st2.ranges st2.pos (st2.pos + (n : Int))) st2 st2.pos
        (st2.pos + (n : Int)) hpg2 hchain2 hwf2 (by omega) hcovall
    have hsz2 := @attemptSize_resolved env st2 (contentLen env)
      (by rw [hsfs2, hsfs']; exact hsfs)
    have hread2 : read env st2 (some (n : Int)) =
        .ok ({ st2 with pos := st2.pos + (chunk2.length : Int) }, chunk2) := by
      unfold read
      simp only [hsz2, hloop2]
    have hbeq : chunk = chunk2 := by
      apply List.ext_getElem (by rw [hlen, hlen2]; omega)
      intro i h1 h2
      have hx := hagree' (st.pos + (i : Int)) (by omega)
        (by rw [hlen] at h1; omega)
      have hx2 := hagree2 (st2.pos + (i : Int)) (by omega)
        (by rw [hlen2] at h2; omega)
      have hi1 : (st.pos + (i : Int) - st.pos).toNat = i := by omega
      have hi2 : (st2.pos + (i : Int) - st2.pos).toNat = i := by omega
      rw [hi1] at hx
      rw [hi2] at hx2
      rw [hp2, hb2] at hx2
      rw [List.getD_eq_getElem _ _ h1] at hx
      rw [List.getD_eq_getElem _ _ h2] at hx2
      rw [← hx, ← hx2]
    exact ⟨_, chunk, st2, _, chunk2, hread1, hseekEq, hread2, hbeq,
      by rw [show ({ st2 with pos := st2.pos + (chunk2.length : Int) } : St).server_read = st2.server_read from rfl, hsr2]⟩

/-- Witness for C3 on a consistent stream at position 2 reading 4 of 10
bytes. -/
theorem read_repeat_cached_witness :
    (GoodState envOk stW ∧ stW.pos + ((4 : Nat) : Int) ≤ contentLen envOk) ∧
    (∃ st1 b1 st2 st3 b2,
      read envOk stW (some ((4 : Nat) : Int)) = .ok (st1, b1) ∧
      seek envOk st1 stW.pos 0 = .ok (st2, none) ∧
      read envOk st2 (some ((4 : Nat) : Int)) = .ok (st3, b2) ∧
      b1 = b2 ∧
      st3.server_read = st1.server_read) := by
  have hg : GoodState envOk stW :=
    ⟨rfl, by simp [stW], by simp [stW], by decide, fun _ => ⟨⟨2, true⟩, rfl, rfl⟩⟩
  exact ⟨⟨hg, by decide⟩, read_repeat_cached envOk stW 4 hg (by decide)⟩

/-! ## Claim C9: short reads -/

/-- C9 counterexample: over a 10-byte resource, reading 15 bytes from
position 5 yields the five remaining bytes without an exception, but the
range set registers the requested extent `(5, 20)`, not the fetched extent
`(5, 10)`. -/
theorem short_read_counterexample :
    ∃ st', read envOk stC9 (some 15) = .ok (st', [15, 16, 17, 18, 19]) ∧
      st'.ranges = [(5, 20)] ∧ st'.ranges ≠ [(5, 10)] :=
  ⟨_, rfl, rfl, by decide⟩

/-- C9 amended: when upstream yields fewer bytes than a bounded cache-miss
request (here: nothing cached, a bounded read past the end of the
resource, served by the aligned open response), no exception is raised,
the shorter bytes actually obtained are returned, and the REQUESTED
extent `[pos, pos + n)` — not the span of bytes actually obtained — is
registered in the range set; `server_read` counts only the bytes actually
obtained. -/
theorem short_read_registers_requested (env : Env) (st : St) (n : Nat)
    (hranges : st.ranges = [])
    (hsfs : st.server_full_size = some (contentLen env))
    (hpos : 0 ≤ st.pos) (hposS : st.pos ≤ contentLen env)
    (hover : contentLen env < st.pos + (n : Int))
    (hsess : ∃ s, st.resp = some s ∧ s.spos = st.pos) :
    ∃ st', read env st (some (n : Int)) =
        .ok (st', env.content.drop st.pos.toNat) ∧
      st'.ranges = [(st.pos, st.pos + (n : Int))] ∧
      ((env.content.drop st.pos.toNat).length : Int) =
        contentLen env - st.pos ∧
      ((env.content.drop st.pos.toNat).length : Int) < (n : Int) ∧
      st'.server_read =
        st.server_read + ((env.content.drop st.pos.toNat).length : Int) := by
  obtain ⟨s, hresp, hspos⟩ := hsess
  have hsz := @attemptSize_resolved env st (contentLen env) hsfs
  have hk : st.pos + (n : Int) - st.pos = (n : Int) := by omega
  have hpart : iterPartition st.ranges st.pos (st.pos + (n : Int)) =
      [(st.pos, st.pos + (n : Int))] := by
    rw [hranges, iterPartition_nil]
  have hnm : ¬ memRange st.ranges st.pos (st.pos + (n : Int)) := by
    rw [hranges]
    rintro ⟨r, hr, -⟩
    simp at hr
  have hlendrop : ((env.content.drop st.pos.toNat).length : Int) =
      contentLen env - st.pos := by
    rw [List.length_drop]
    unfold contentLen
    unfold contentLen at hposS
    omega
  have hdrop : sessBytes env s (n : Int) = env.content.drop st.pos.toNat := by
    unfold sessBytes
    rw [if_neg (by omega), hspos]
    apply List.take_of_length_le
    rw [List.length_drop]
    unfold contentLen at hover
    omega
  have hsrd : sessRead env s (n : Int) =
      (env.content.drop st.pos.toNat,
        { s with spos := s.spos +
          ((env.content.drop st.pos.toNat).length : Int) }) := by
    unfold sessRead
    rw [hdrop]
  have hloop : readLoop env st [(st.pos, st.pos + (n : Int))] = .ok ({ st with buf := bufWrite st.buf st.pos (env.content.drop st.pos.toNat), resp := some { s with spos := s.spos + ((env.content.drop st.pos.toNat).length : Int) }, server_read := st.server_read + ((env.content.drop st.pos.toNat).length : Int), ranges := addRange st.ranges st.pos (st.pos + (n : Int)) }, env.content.drop st.pos.toNat) := by
    simp only [readLoop, if_neg (show ¬(st.pos < 0) by omega), if_neg hnm,
      seek_same (Eq.refl st.pos), hresp, hk, hsrd, List.append_nil]
  refine ⟨{ st with pos := st.pos + ((env.content.drop st.pos.toNat).length : Int), buf := bufWrite st.buf st.pos (env.content.drop st.pos.toNat), ranges := addRange st.ranges st.pos (st.pos + (n : Int)), resp := some { s with spos := s.spos + ((env.content.drop st.pos.toNat).length : Int) }, server_read := st.server_read + ((env.content.drop st.pos.toNat).length : Int) }, ?_, ?_, ?_, ?_, ?_⟩
  · unfold read
    simp only [hsz, hpart, hloop]
  · show addRange st.ranges st.pos (st.pos + (n : Int)) =
      [(st.pos, st.pos + (n : Int))]
    rw [hranges, addRange_nil]
  · exact hlendrop
  · omega
  · rfl

/-- Witness for C9: reading 15 bytes at position 5 of the 10-byte
resource. -/
theorem short_read_registers_requested_witness :
    (stC9.ranges = [] ∧
      stC9.server_full_size = some (contentLen envOk) ∧
      (0 : Int) ≤ stC9.pos ∧ stC9.pos ≤ contentLen envOk ∧
      contentLen envOk < stC9.pos + ((15 : Nat) : Int) ∧
      (∃ s, stC9.resp = some s ∧ s.spos = stC9.pos)) ∧
    (∃ st', read envOk stC9 (some ((15 : Nat) : Int)) =
        .ok (st', envOk.content.drop stC9.pos.toNat) ∧
      st'.ranges = [(stC9.pos, stC9.pos + ((15 : Nat) : Int))] ∧
      ((envOk.content.drop stC9.pos.toNat).length : Int) =
        contentLen envOk - stC9.pos ∧
      ((envOk.content.drop stC9.pos.toNat).length : Int) < ((15 : Nat) : Int) ∧
      st'.server_read =
        stC9.server_read +
          ((envOk.content.drop stC9.pos.toNat).length : Int)) :=
  ⟨⟨rfl, rfl, by decide, by decide, by decide, ⟨⟨5, true⟩, rfl, rfl⟩⟩,
    short_read_registers_requested envOk stC9 15 rfl rfl (by decide)
      (by decide) (by decide) ⟨⟨5, true⟩, rfl, rfl⟩⟩

end Rio
